import Mathlib

/-!
Verification of the city-network system's core algorithms against their
natural-language specification.

The Python sources are shallowly embedded:
* Python `str` values become `List Char` (a Python string is a sequence of
  characters; list induction mirrors string iteration).
* Python dicts become association lists together with the lookup discipline
  the source relies on (first-wins for dicts whose keys are provably unique,
  last-wins where the source may overwrite).
* `heapq` is modelled extensionally: the algorithm only uses push and
  pop-min, and all heap keys are distinct pairs `(count, id)`, so any
  priority-queue implementation produces the same pop sequence; we model the
  heap as the list of its elements and pop as removal of the unique minimum.
* CPython `id(...)` values are modelled by an explicit id-assignment function
  `σ : Nat → Nat` mapping the allocation sequence number of each heap node to
  its id; a run of CPython corresponds to some injective `σ`.
* loops that terminate for extrinsic reasons use an explicit fuel argument
  chosen at the call site to dominate the loop's iteration count, so that all
  definitions reduce by `rfl`/`decide`.
-/

/- ### Huffman encoder (src/backend/crypto.py, class HuffmanEncoder) -/

/-- Huffman tree node: Python dict `{'char': c|None, 'freq': n, 'left': l|None,
'right': r|None}`.  Merged nodes always carry two children and `char = None`;
leaves carry a char and no children, so an inductive with exactly these two
shapes is faithful. -/
inductive Htree
  | leaf (c : Char) (freq : Nat)
  | node (freq : Nat) (l r : Htree)
deriving DecidableEq, Repr

/-- Frequency of a tree node (the `freq` field). -/
def Htree.hfreq : Htree → Nat
  | .leaf _ f => f
  | .node f _ _ => f

/-- First occurrences of the characters of `text`, in order: the iteration
order of `collections.Counter(text)` (dict insertion order). -/
def firstOccs : List Char → List Char
  | [] => []
  | c :: rest => c :: (firstOccs rest).filter (fun d => d ≠ c)

/-- `_build_frequency_table`: `Counter(text)` as an association list in
first-occurrence order. -/
def build_frequency_table (text : List Char) : List (Char × Nat) :=
  (firstOccs text).map (fun c => (c, text.count c))

/-- Heap key comparison: CPython compares the tuples `(count, id, node)`
lexicographically; ids are distinct so the node dict is never compared. -/
def heapKeyLe (a b : Nat × Nat × Htree) : Prop :=
  a.1 < b.1 ∨ (a.1 = b.1 ∧ a.2.1 ≤ b.2.1)

instance : DecidablePred (fun p : (Nat × Nat × Htree) × (Nat × Nat × Htree) => heapKeyLe p.1 p.2) :=
  fun _ => by unfold heapKeyLe; infer_instance

instance heapKeyLe.dec (a b : Nat × Nat × Htree) : Decidable (heapKeyLe a b) := by
  unfold heapKeyLe; infer_instance

/-- Pop the minimum-key element from the heap, returning it and the remaining
elements.  Extensional model of `heapq.heappop`: with all keys distinct the
popped element is the unique minimum of the multiset. -/
def popMin : List (Nat × Nat × Htree) → Option ((Nat × Nat × Htree) × List (Nat × Nat × Htree))
  | [] => none
  | x :: xs =>
    match popMin xs with
    | none => some (x, [])
    | some (m, rest) => if heapKeyLe x m then some (x, xs) else some (m, x :: rest)

/-- The merge loop of `_build_huffman_tree`: `while len(heap) > 1`, pop two
nodes (`left` then `right`), push their merge with a fresh id `σ ctr`.  When
one element remains, the result is `heap[0][2]`.  `fuel` dominates the
iteration count (each iteration shrinks the heap by one); the fuel-0 branch is
unreachable at the call site. -/
def mergeLoop (σ : Nat → Nat) : Nat → List (Nat × Nat × Htree) → Nat → Htree
  | _, [], _ => .leaf ' ' 0
  | 0, h :: _, _ => h.2.2
  | fuel + 1, heap, ctr =>
    match popMin heap with
    | none => .leaf ' ' 0
    | some (x, rest) =>
      match popMin rest with
      | none => x.2.2
      | some (y, rest2) =>
        let merged := Htree.node (x.2.2.hfreq + y.2.2.hfreq) x.2.2 y.2.2
        mergeLoop σ fuel ((x.2.2.hfreq + y.2.2.hfreq, σ ctr, merged) :: rest2) (ctr + 1)

/-- `_build_huffman_tree` with id assignment `σ`: a single distinct symbol is
special-cased to a bare leaf; otherwise all leaves are pushed (allocation
numbers `0..k-1`) and merged (merge allocations numbered from `k`). -/
def build_huffman_tree (σ : Nat → Nat) (freq : List (Char × Nat)) : Htree :=
  match freq with
  | [(c, n)] => .leaf c n
  | _ =>
    let leaves := freq.enum.map (fun p => (p.2.2, σ p.1, Htree.leaf p.2.1 p.2.2))
    mergeLoop σ leaves.length leaves freq.length

/-- `_build_codes`: walk the tree, `'0'` on left descent, `'1'` on right; a
leaf records `code if code else "0"`.  The association list is in traversal
order, matching the dict insertion order of `self.codes`. -/
def build_codes : Htree → List Char → List (Char × List Char)
  | .leaf c _, code => [(c, if code.isEmpty then ['0'] else code)]
  | .node _ l r, code => build_codes l (code ++ ['0']) ++ build_codes r (code ++ ['1'])

/-- Python dict lookup on an association list whose keys are unique
(first match). -/
def dictGet {α β : Type} [DecidableEq α] (m : List (α × β)) (k : α) : Option β :=
  (m.find? (fun p => p.1 = k)).map (fun p => p.2)

/-- `encode` parameterised by the heap id assignment: frequency table, tree,
code table, then concatenation of each input symbol's code.  `self.codes[char]`
always succeeds (every text symbol is a leaf); the `getD []` default is
unreachable. -/
def encodeWith (σ : Nat → Nat) (text : List Char) : List Char × List (Char × List Char) :=
  if text.isEmpty then ([], [])
  else
    let freq := build_frequency_table text
    let tree := build_huffman_tree σ freq
    let codes := build_codes tree []
    (text.flatMap (fun c => (dictGet codes c).getD []), codes)

/-- `encode` as executed by a run whose heap ids coincide with allocation
order (the canonical deterministic run). -/
def encode (text : List Char) : List Char × List (Char × List Char) :=
  encodeWith (fun i => i) text

/-- The reversed code table `{v: k for k, v in codes.items()}`: on duplicate
codes the later `(k, v)` pair overwrites, hence lookup scans the reversed
list. -/
def reverseCodes (codes : List (Char × List Char)) (w : List Char) : Option Char :=
  (codes.reverse.find? (fun p => p.2 = w)).map (fun p => p.1)

/-- The decode loop: accumulate bits into `current_code`, emit a symbol and
reset whenever the accumulator is a key of the reversed table.  Returns the
decoded text together with the final (leftover) accumulator. -/
def decodeLoop (codes : List (Char × List Char)) :
    List Char → List Char → List Char × List Char
  | [], acc => ([], acc)
  | b :: bs, acc =>
    match reverseCodes codes (acc ++ [b]) with
    | some ch => (ch :: (decodeLoop codes bs []).1, (decodeLoop codes bs []).2)
    | none => decodeLoop codes bs (acc ++ [b])

/-- `decode`: empty bitstring or empty table short-circuits to `""`; otherwise
run the greedy loop and return the decoded text (the leftover accumulator is
discarded). -/
def decode (encoded : List Char) (codes : List (Char × List Char)) : List Char :=
  if encoded.isEmpty || codes.isEmpty then []
  else (decodeLoop codes encoded []).1

/-- Modelled from the spec: the decoder that §4.2 describes, which treats a
non-empty unmatched leftover accumulator as a hard error instead of dropping
it.  Used only to compare the implementation against the spec's words. -/
def decodeStrictSpec (encoded : List Char) (codes : List (Char × List Char)) :
    Except Unit (List Char) :=
  if encoded.isEmpty || codes.isEmpty then .ok []
  else
    let r := decodeLoop codes encoded []
    if r.2 = [] then .ok r.1 else .error ()

/-- `CryptoManager.decrypt_message`, with the Fernet layer abstracted: the
external `fernet.decrypt` either fails authentication (raising, which the
`try` converts to `ValueError("解密失败: ...")`) or yields the huffman
bitstring, which is then decoded.  `HuffmanEncoder.decode` itself has no
failure path. -/
def decrypt_message (fernetResult : Except Unit (List Char))
    (codes : List (Char × List Char)) : Except Unit (List Char) :=
  match fernetResult with
  | .error _ => .error ()
  | .ok bits => .ok (decode bits codes)

/- ### Key agreement (src/backend/crypto.py, class CryptoManager) -/

/-- Python string comparison `city1 < city2`: lexicographic on code points,
a strict prefix is smaller. -/
def pyStrLt : List Char → List Char → Bool
  | _, [] => false
  | [], _ :: _ => true
  | a :: as, b :: bs => a < b || (decide (¬ b < a) && pyStrLt as bs)

/-- The canonical unordered-pair key
`f"{city1}-{city2}" if city1 < city2 else f"{city2}-{city1}"`. -/
def canonPair (c1 c2 : List Char) : List Char :=
  if pyStrLt c1 c2 then c1 ++ '-' :: c2 else c2 ++ '-' :: c1

/-- Python dict assignment `m[k] = v`: replace the value if the key is
present, otherwise append the binding. -/
def dictSet {α β : Type} [DecidableEq α] (m : List (α × β)) (k : α) (v : β) :
    List (α × β) :=
  if (m.find? (fun p => p.1 = k)).isSome then
    m.map (fun p => if p.1 = k then (k, v) else p)
  else m ++ [(k, v)]

/-- `CryptoManager` state: the `shared_secrets` dict (canonical pair key to
Fernet key bytes, the latter modelled as the list of base64 characters). -/
structure CryptoState where
  shared_secrets : List (List Char × List Char)
deriving DecidableEq

/-- `int.to_bytes(len, 'big')`: big-endian byte expansion. -/
def toBytesBE (len : Nat) (s : Nat) : List Nat :=
  (List.range len).map (fun i => s / 256 ^ (len - 1 - i) % 256)

/-- The URL-safe base64 alphabet used by `base64.urlsafe_b64encode`. -/
def b64urlAlphabet : List Char :=
  "ABCDEFGHIJKLMNOPQRSTUVWXYZabcdefghijklmnopqrstuvwxyz0123456789-_".data

/-- Character of the URL-safe base64 alphabet at index `i`. -/
def b64char (i : Nat) : Char := b64urlAlphabet.getD i 'A'

/-- `base64.urlsafe_b64encode` on a byte list (RFC 4648 with `=` padding). -/
def b64urlEncode : List Nat → List Char
  | [] => []
  | [a] => [b64char (a / 4), b64char (a % 4 * 16), '=', '=']
  | [a, b] => [b64char (a / 4), b64char (a % 4 * 16 + b / 16), b64char (b % 16 * 4), '=']
  | a :: b :: c :: rest =>
    b64char (a / 4) :: b64char (a % 4 * 16 + b / 16) :: b64char (b % 16 * 4 + c / 64) ::
      b64char (c % 64) :: b64urlEncode rest

/-- `_derive_fernet_key`: `urlsafe_b64encode(shared_key.to_bytes(32, 'big'))`. -/
def derive_fernet_key (sharedKey : Nat) : List Char :=
  b64urlEncode (toBytesBE 32 sharedKey)

/-- `_key_exchange_sync` with the two `secrets.randbits(256)` draws passed in
as explicit randomness parameters; `pow(g, k, p)` is `g ^ k % p`.  Stores
`key1` under the canonical pair and returns `(key1, key2)`. -/
def key_exchange_sync (st : CryptoState) (city1 city2 : List Char)
    (priv1 priv2 : Nat) : (List Char × List Char) × CryptoState :=
  let p : Nat := 2 ^ 256 - 189
  let g : Nat := 2
  let pub1 := g ^ priv1 % p
  let pub2 := g ^ priv2 % p
  let shared1 := pub2 ^ priv1 % p
  let shared2 := pub1 ^ priv2 % p
  let key1 := derive_fernet_key shared1
  let key2 := derive_fernet_key shared2
  ((key1, key2), ⟨dictSet st.shared_secrets (canonPair city1 city2) key1⟩)

/-- `get_shared_key`: dict lookup under the canonical pair key. -/
def get_shared_key (st : CryptoState) (city1 city2 : List Char) : Option (List Char) :=
  dictGet st.shared_secrets (canonPair city1 city2)

/-- `establish_shared_key`: return the cached key when the lookup is truthy
(present and non-empty), otherwise run the key exchange and return `key1`. -/
def establish_shared_key (st : CryptoState) (city1 city2 : List Char)
    (priv1 priv2 : Nat) : List Char × CryptoState :=
  match get_shared_key st city1 city2 with
  | some k =>
    if k.isEmpty then
      let r := key_exchange_sync st city1 city2 priv1 priv2
      (r.1.1, r.2)
    else (k, st)
  | none =>
    let r := key_exchange_sync st city1 city2 priv1 priv2
    (r.1.1, r.2)

/- ### Routing (src/backend/routing.py, class RoutingManager) -/

/-- An edge record `{'u': u, 'v': v, 'w': w}`. -/
structure NetEdge where
  u : Nat
  v : Nat
  w : Nat
deriving DecidableEq, Repr

/-- A city record; only the `'name'` field is ever read by the core. -/
structure City where
  name : List Char
deriving DecidableEq, Repr

/-- `RoutingManager` state.  The dicts `adjacency_list` and `mst_adjacency`
have key set `range(n)`, so they are modelled positionally as a list of
`n` buckets. -/
structure RoutingState where
  cities : List City
  edges : List NetEdge
  mst_edges : List NetEdge
  adjacency_list : List (List (Nat × Nat))
  city_to_index : List (List Char × Nat)
  index_to_city : List (Nat × List Char)
  mst_adjacency : List (List (Nat × Nat))
deriving DecidableEq

/-- Python dict lookup for a dict built by comprehension, where a later
binding for the same key overwrites an earlier one (last wins). -/
def dictGetLast {α β : Type} [DecidableEq α] (m : List (α × β)) (k : α) : Option β :=
  (m.reverse.find? (fun p => p.1 = k)).map (fun p => p.2)

/-- `find` with path compression.  Python recurses on `parent[x]` until a
fixpoint and overwrites `parent[x]` with the root on the way back; `fuel`
dominates the recursion depth (the parent forest is acyclic and has at most
`n` nodes, see `ufFind_spec`); out-of-range reads default to `x` itself,
which is unreachable for in-range arguments. -/
def ufFind : Nat → List Nat → Nat → List Nat × Nat
  | 0, parent, x => (parent, x)
  | fuel + 1, parent, x =>
    let px := parent.getD x x
    if px = x then (parent, x)
    else
      let r := ufFind fuel parent px
      (r.1.set x r.2, r.2)

/-- `union` with union by rank: find both roots (sequentially, threading the
compressed parent list), return `False` on equal roots, otherwise attach the
lower-rank root beneath the higher-rank one and bump the rank on ties. -/
def ufUnion (parent rank : List Nat) (x y : Nat) : (List Nat × List Nat) × Bool :=
  let f1 := ufFind parent.length parent x
  let f2 := ufFind f1.1.length f1.1 y
  let rx := f1.2
  let ry := f2.2
  let p2 := f2.1
  if rx = ry then ((p2, rank), false)
  else
    let xr := if rank.getD rx 0 < rank.getD ry 0 then ry else rx
    let yr := if rank.getD rx 0 < rank.getD ry 0 then rx else ry
    let p3 := p2.set yr xr
    let rank2 := if rank.getD xr 0 = rank.getD yr 0 then rank.set xr (rank.getD xr 0 + 1) else rank
    ((p3, rank2), true)

/-- The Kruskal edge loop: accept an edge when `union` merges two components,
stop early once `n - 1` edges are accepted.  Returns the accepted edges and
the final parent list. -/
def kruskalLoop (n : Nat) : List NetEdge → List Nat → List Nat → List NetEdge →
    List NetEdge × List Nat
  | [], parent, _rank, mst => (mst, parent)
  | e :: rest, parent, rank, mst =>
    let r := ufUnion parent rank e.u e.v
    if r.2 then
      let mst2 := mst ++ [e]
      if mst2.length = n - 1 then (mst2, r.1.1)
      else kruskalLoop n rest r.1.1 r.1.2 mst2
    else kruskalLoop n rest r.1.1 r.1.2 mst

/-- `sorted(self.edges, key=lambda x: x['w'])`: stable ascending sort by
weight. -/
def sortEdgesByW (edges : List NetEdge) : List NetEdge :=
  edges.mergeSort (fun a b => a.w ≤ b.w)

/-- Append a neighbour entry into bucket `i` of an adjacency table. -/
def adjAppend (adj : List (List (Nat × Nat))) (i : Nat) (pr : Nat × Nat) :
    List (List (Nat × Nat)) :=
  adj.modify (fun l => l ++ [pr]) i

/-- Build the MST adjacency `{i: [] for i in range(n)}` plus both directed
entries per accepted edge.  Accepted edges always have in-range endpoints in
the flows proved about (out-of-range `modifyNth` is the identity). -/
def buildMstAdjacency (n : Nat) (mst : List NetEdge) : List (List (Nat × Nat)) :=
  mst.foldl (fun adj e => adjAppend (adjAppend adj e.u (e.v, e.w)) e.v (e.u, e.w))
    (List.replicate n [])

/-- `_compute_mst`: empty edge list or empty city list resets the MST state;
otherwise run Kruskal on the weight-sorted edges with a fresh union-find and
rebuild the MST adjacency. -/
def compute_mst (st : RoutingState) : RoutingState :=
  if st.edges.isEmpty || st.cities.isEmpty then
    { st with mst_edges := [],
              mst_adjacency := List.replicate st.cities.length [] }
  else
    let n := st.cities.length
    let r := kruskalLoop n (sortEdgesByW st.edges) (List.range n) (List.replicate n 0) []
    { st with mst_edges := r.1, mst_adjacency := buildMstAdjacency n r.1 }

/-- Build the full adjacency list; `self.adjacency_list[u]` raises `KeyError`
for an out-of-range endpoint (`u` is read before `v`), and the error carries
the partially built table, mirroring the mutated `self.adjacency_list`. -/
def buildAdjacency (n : Nat) : List NetEdge → List (List (Nat × Nat)) →
    Except (List (List (Nat × Nat))) (List (List (Nat × Nat)))
  | [], adj => .ok adj
  | e :: rest, adj =>
    if e.u < n then
      let adj1 := adjAppend adj e.u (e.v, e.w)
      if e.v < n then buildAdjacency n rest (adjAppend adj1 e.v (e.u, e.w))
      else .error adj1
    else .error adj

/-- `load_topology` as a state transition.  The Boolean records whether a
`KeyError` escaped; in that case the returned state reflects the mutations
performed before the raise (cities, edges and both identity maps already
replaced, `mst_edges` and `mst_adjacency` still stale). -/
def load_topology (st : RoutingState) (cities : List City) (edges : List NetEdge) :
    RoutingState × Bool :=
  match buildAdjacency cities.length edges (List.replicate cities.length []) with
  | .error adjPartial =>
    ({ st with
        cities := cities,
        edges := edges,
        city_to_index := cities.enum.map (fun (p : Nat × City) => (p.2.name, p.1)),
        index_to_city := cities.enum.map (fun (p : Nat × City) => (p.1, p.2.name)),
        adjacency_list := adjPartial }, true)
  | .ok adj =>
    (compute_mst { st with
        cities := cities,
        edges := edges,
        city_to_index := cities.enum.map (fun (p : Nat × City) => (p.2.name, p.1)),
        index_to_city := cities.enum.map (fun (p : Nat × City) => (p.1, p.2.name)),
        adjacency_list := adj }, false)

/-- The inner neighbour scan of the BFS loop: return `path + [target_city]`
as soon as the target index appears among the neighbours, otherwise enqueue
unvisited neighbours (marking them visited) and hand back the grown queue. -/
def bfsScan (i2c : List (Nat × List Char)) (tgtIdx : Nat) (tgtName : List Char)
    (path : List (List Char)) :
    List (Nat × Nat) → List (Nat × List (List Char)) → List Nat →
    (List (List Char)) ⊕ (List (Nat × List (List Char)) × List Nat)
  | [], queue, visited => .inr (queue, visited)
  | (nb, _) :: rest, queue, visited =>
    if nb = tgtIdx then .inl (path ++ [tgtName])
    else if nb ∈ visited then bfsScan i2c tgtIdx tgtName path rest queue visited
    else bfsScan i2c tgtIdx tgtName path rest
      (queue ++ [(nb, path ++ [(dictGetLast i2c nb).getD []])]) (visited ++ [nb])

/-- The BFS `while queue:` loop.  `fuel` dominates the iteration count (each
node is enqueued at most once, see the soundness lemmas); fuel exhaustion and
queue exhaustion both return the empty path, exactly the loop's fallthrough
`return []`. -/
def bfsLoop (adj : List (List (Nat × Nat))) (i2c : List (Nat × List Char))
    (tgtIdx : Nat) (tgtName : List Char) :
    Nat → List (Nat × List (List Char)) → List Nat → List (List Char)
  | 0, _, _ => []
  | _ + 1, [], _ => []
  | fuel + 1, (cur, path) :: rest, visited =>
    match bfsScan i2c tgtIdx tgtName path (adj.getD cur []) rest visited with
    | .inl found => found
    | .inr r => bfsLoop adj i2c tgtIdx tgtName fuel r.1 r.2

/-- `find_route`: unknown source or target give the empty path; an empty
`mst_adjacency` gives the empty path; equal indices give `[source_city]`;
otherwise BFS over the MST adjacency.  The `hasattr`-guard of the source is
vacuous here because the state always carries `mst_adjacency`. -/
def find_route (st : RoutingState) (source_city target_city : List Char) :
    List (List Char) :=
  match dictGetLast st.city_to_index source_city,
        dictGetLast st.city_to_index target_city with
  | some si, some ti =>
    if st.mst_adjacency.length = 0 then []
    else if si = ti then [source_city]
    else bfsLoop st.mst_adjacency st.index_to_city ti target_city
      (st.mst_adjacency.length + 1) [(si, [source_city])] [si]
  | _, _ => []

/- ### Connection manager (src/backend/connection_manager.py) -/

/-- The monitoring sink identity. -/
def monitorAdmin : List Char := "Monitor_Admin".data

/-- `get_active_cities`: the registered city keys without the monitoring
sink. -/
def get_active_cities (keys : List (List Char)) : List (List Char) :=
  keys.filter (fun c => c ≠ monitorAdmin)

/-- `get_connection_count`: `len(self.active_connections)`. -/
def get_connection_count (keys : List (List Char)) : Nat := keys.length

/-- Observable payload kinds sent by `send_encrypted_message`. -/
inductive Payload
  | errorToSender
  | envelope
deriving DecidableEq, Repr

/-- Observable effects of `send_encrypted_message` on the registry and
channels: a send attempt to a city's channel, or an eviction
(`self.disconnect`). -/
inductive Eff
  | send (city : List Char) (p : Payload)
  | evict (city : List Char)
deriving DecidableEq, Repr

/-- Outcome of one channel send: whether `send_text` succeeded, and whether a
failure's message matches the closed/disconnect/connection/reset keywords. -/
structure SendOutcome where
  ok : Bool
  closedIndicator : Bool

/-- Environment for one `send_encrypted_message` call: the registered city
keys and the outcome of each external operation (key agreement, encryption,
JSON serialisation, each channel send). -/
structure SendEnv where
  activeKeys : List (List Char)
  keyOk : Bool
  encOk : Bool
  jsonOk : Bool
  sendOutcome : List Char → SendOutcome
  monitorOutcome : SendOutcome

/-- The best-effort error notification to the original sender: a single send
attempt when the sender has a registered channel, nothing otherwise (the
attempt's own failure is swallowed). -/
def errNotify (active : List (List Char)) (sender : List Char) : List Eff :=
  if sender ∈ active then [Eff.send sender Payload.errorToSender] else []

/-- `send_encrypted_message` as a function from the routing state and the
call's environment to its effect trace.  Failure of key agreement,
encryption or serialisation raises into the outer `except`, which degrades to
`errNotify`; the success path sends the envelope to each connected route
city, evicts the sends whose failure was classified as a disconnect (after
all sends resolved), then delivers to the monitoring sink. -/
def send_encrypted_message (rst : RoutingState) (env : SendEnv)
    (from_city to_city : List Char) : List Eff :=
  if rst.cities.isEmpty then errNotify env.activeKeys from_city
  else
    let route := find_route rst from_city to_city
    if route.isEmpty then errNotify env.activeKeys from_city
    else if env.keyOk = false then errNotify env.activeKeys from_city
    else if env.encOk = false then errNotify env.activeKeys from_city
    else if env.jsonOk = false then errNotify env.activeKeys from_city
    else
      let attempts := route.filter (fun c => c ∈ env.activeKeys)
      let sendEffs := attempts.map (fun c => Eff.send c Payload.envelope)
      let failedClosed := attempts.filter
        (fun c => (env.sendOutcome c).ok = false ∧ (env.sendOutcome c).closedIndicator = true)
      let evictEffs := failedClosed.map Eff.evict
      let monitorEffs :=
        if monitorAdmin ∈ env.activeKeys ∧ monitorAdmin ∉ route then
          Eff.send monitorAdmin Payload.envelope ::
            (if env.monitorOutcome.ok = false ∧ env.monitorOutcome.closedIndicator = true then
              [Eff.evict monitorAdmin]
            else [])
        else []
      sendEffs ++ evictEffs ++ monitorEffs

/- ### Spec-side notions used in the theorem statements -/

/-- List `a` is a prefix of list `b`. -/
def isPref {α : Type} (a b : List α) : Prop := ∃ t, a ++ t = b

/-- Two code words are incomparable: neither is a prefix of the other. -/
def incomp (a b : List Char) : Prop := ¬ isPref a b ∧ ¬ isPref b a

/-- The leaf characters of a Huffman tree, left to right. -/
def leavesList : Htree → List Char
  | .leaf c _ => [c]
  | .node _ l r => leavesList l ++ leavesList r

/-- Two city indices are adjacent when some edge of the list joins them. -/
def adjNat (edges : List NetEdge) (a b : Nat) : Prop :=
  ∃ e ∈ edges, (e.u = a ∧ e.v = b) ∨ (e.u = b ∧ e.v = a)

/-- Graph connectivity: the equivalence closure of edge adjacency. -/
def connNat (edges : List NetEdge) : Nat → Nat → Prop :=
  Relation.EqvGen (adjNat edges)

/-- Edge adjacency restricted to the city indices `Fin n`. -/
def adjFin (edges : List NetEdge) (n : Nat) (a b : Fin n) : Prop :=
  adjNat edges a.val b.val

/-- The number of connected components of the topology graph on `n` city
indices: the number of equivalence classes of graph connectivity.  A spec-side
cardinality, independent of the union-find implementation; it appears only in
theorem statements and is never evaluated. -/
noncomputable def numComponents (n : Nat) (edges : List NetEdge) : Nat :=
  Nat.card (Quotient (Relation.EqvGen.setoid (adjFin edges n)))

/-- Following parent pointers from `x` reaches the root `r` in `k` steps. -/
inductive RootPathN (p : List Nat) : Nat → Nat → Nat → Prop
  | root (x : Nat) : p.getD x x = x → RootPathN p x x 0
  | step (x r k : Nat) : p.getD x x ≠ x → RootPathN p (p.getD x x) r k →
      RootPathN p x r (k + 1)

/-- Following parent pointers from `x` terminates at the root `r`. -/
def RootPath (p : List Nat) (x r : Nat) : Prop := ∃ k, RootPathN p x r k

/-- `x` and `y` lie in the same union-find class. -/
def sameRoot (p : List Nat) (x y : Nat) : Prop :=
  ∃ r, RootPath p x r ∧ RootPath p y r

/-- The union-find roots among `0..n-1`. -/
def ufRoots (p : List Nat) (n : Nat) : List Nat :=
  (List.range n).filter (fun i => decide (p.getD i i = i))

/-- `RoutingManager.__init__`: the state before any topology load. -/
def initialRoutingState : RoutingState := ⟨[], [], [], [], [], [], []⟩

/-- Well-formedness of the union-find state: the rank list matches, parents
stay in range, and ranks strictly increase towards the parent (hence the
parent forest is acyclic). -/
structure UFWf (p r : List Nat) : Prop where
  rlen : r.length = p.length
  pmem : ∀ i, i < p.length → p.getD i i < p.length
  prank : ∀ i, i < p.length → p.getD i i ≠ i → r.getD i 0 < r.getD (p.getD i i) 0

/-- The number of strictly higher-ranked in-range nodes. -/
def ufMeasure (r : List Nat) (n x : Nat) : Nat :=
  ((Finset.range n).filter (fun y => r.getD x 0 < r.getD y 0)).card

/- ### Theorems -/

/- #### C9: active cities versus connection count -/

/-- Removing the unique occurrence of a member of a duplicate-free list by a
filter shortens the list by exactly one. -/
theorem length_filter_ne_of_nodup_mem {α : Type} [DecidableEq α] :
    ∀ (l : List α) (a : α), l.Nodup → a ∈ l →
      l.length = (l.filter (fun c => c ≠ a)).length + 1 := by
  intro l a hnd hm
  induction l with
  | nil => cases hm
  | cons b t ih =>
    by_cases hba : b = a
    · subst hba
      have hnotin : b ∉ t := (List.nodup_cons.1 hnd).1
      have hft : t.filter (fun c => c ≠ b) = t := by
        apply List.filter_eq_self.2
        intro c hc
        have hcb : c ≠ b := by rintro rfl; exact hnotin hc
        simp [hcb]
      simp only [ne_eq, decide_not] at hft
      simp [List.filter_cons, hft]
    · have hmem : a ∈ t := by
        rcases List.mem_cons.1 hm with h | h
        · exact absurd h.symm hba
        · exact h
      have ihh := ih (List.nodup_cons.1 hnd).2 hmem
      simp only [ne_eq, decide_not] at ihh
      simp [List.filter_cons, hba]
      omega

/-- C9: `get_active_cities` never lists the monitoring sink, while
`get_connection_count` counts every registered session; with the sink
registered the count exceeds the active-city list length by exactly one, and
without it the two agree. -/
theorem C9_monitor_excluded (keys : List (List Char)) :
    monitorAdmin ∉ get_active_cities keys ∧
    get_connection_count keys = keys.length ∧
    (keys.Nodup → monitorAdmin ∈ keys →
      get_connection_count keys = (get_active_cities keys).length + 1) ∧
    (monitorAdmin ∉ keys →
      get_connection_count keys = (get_active_cities keys).length) := by
  refine ⟨?_, rfl, ?_, ?_⟩
  · intro hmem
    have := (List.mem_filter.1 hmem).2
    simp at this
  · intro hnd hmem
    have := length_filter_ne_of_nodup_mem keys monitorAdmin hnd hmem
    unfold get_connection_count get_active_cities
    omega
  · intro hnotin
    unfold get_connection_count get_active_cities
    rw [List.filter_eq_self.2]
    intro c hc
    have hcm : c ≠ monitorAdmin := by rintro rfl; exact hnotin hc
    simp [hcm]

/-- C9 witness: with sessions for city `A` and the monitoring sink, the sink
is absent from the active list and the count exceeds its length by one. -/
theorem C9_monitor_excluded_witness :
    monitorAdmin ∉ get_active_cities [['A'], monitorAdmin] ∧
    get_connection_count [['A'], monitorAdmin] =
      (get_active_cities [['A'], monitorAdmin]).length + 1 :=
  ⟨(C9_monitor_excluded [['A'], monitorAdmin]).1,
   (C9_monitor_excluded [['A'], monitorAdmin]).2.2.1 (by decide) (by decide)⟩

/- #### C2: behaviour of decode on an unmatched tail -/

/-- A decode run that emits nothing leaves the accumulator holding everything
it has consumed. -/
theorem decodeLoop_no_output (codes : List (Char × List Char)) :
    ∀ (bits acc : List Char), (decodeLoop codes bits acc).1 = [] →
      (decodeLoop codes bits acc).2 = acc ++ bits := by
  intro bits
  induction bits with
  | nil => intro acc _; simp [decodeLoop]
  | cons b bs ih =>
    intro acc h
    cases hrc : reverseCodes codes (acc ++ [b]) with
    | some ch =>
      simp only [decodeLoop, hrc] at h
      exact absurd h (List.cons_ne_nil _ _)
    | none =>
      simp only [decodeLoop, hrc] at h ⊢
      rw [ih (acc ++ [b]) h]
      simp

/-- Decoding a bitstring that is fully consumed, followed by further bits,
decodes the two parts independently. -/
theorem decodeLoop_append_of_consumed (codes : List (Char × List Char)) :
    ∀ (bits acc tail : List Char), (decodeLoop codes bits acc).2 = [] →
      decodeLoop codes (bits ++ tail) acc =
        ((decodeLoop codes bits acc).1 ++ (decodeLoop codes tail []).1,
         (decodeLoop codes tail []).2) := by
  intro bits
  induction bits with
  | nil =>
    intro acc tail h
    simp only [decodeLoop] at h
    subst h
    simp [decodeLoop]
  | cons b bs ih =>
    intro acc tail h
    cases hrc : reverseCodes codes (acc ++ [b]) with
    | some ch =>
      simp only [decodeLoop, hrc] at h
      simp only [List.cons_append, decodeLoop, hrc, List.append_eq]
      rw [ih [] tail h]
    | none =>
      simp only [decodeLoop, hrc] at h
      simp only [List.cons_append, decodeLoop, hrc, List.append_eq]
      exact ih (acc ++ [b]) tail h

/-- C2 counterexample: with the table `{'a': "0"}` and bitstring `"01"`, the
final accumulator holds the unmatched leftover `"1"`, yet `decode` returns
the truncated string `"a"` normally instead of raising, and
`decrypt_message` propagates the corrupted result as a success — the claim's
hard-error behaviour (`decodeStrictSpec`) disagrees with the implementation
at this input. -/
theorem C2_decode_tail_counterexample :
    (decodeLoop [(('a' : Char), ['0'])] ['0', '1'] []).2 = ['1'] ∧
    reverseCodes [(('a' : Char), ['0'])] ['1'] = none ∧
    decode ['0', '1'] [(('a' : Char), ['0'])] = ['a'] ∧
    decodeStrictSpec ['0', '1'] [(('a' : Char), ['0'])] = Except.error () ∧
    decrypt_message (Except.ok ['0', '1']) [(('a' : Char), ['0'])] =
      Except.ok ['a'] :=
  ⟨by decide, by decide, by decide, rfl, rfl⟩

/-- C2 amended: leftover bits that never match a table entry are silently
dropped, not treated as an error — appending an unmatched tail to a fully
consumed bitstring leaves `decode`'s output unchanged and strands the tail in
the discarded accumulator — and `decrypt_message` fails exactly when Fernet
authentication fails, otherwise returning the (possibly truncated) decode. -/
theorem C2_decode_tail_amended (codes : List (Char × List Char))
    (bits tail : List Char)
    (hconsumed : (decodeLoop codes bits []).2 = [])
    (hnomatch : (decodeLoop codes tail []).1 = []) :
    decode (bits ++ tail) codes = decode bits codes ∧
    (decodeLoop codes (bits ++ tail) []).2 = tail ∧
    (∀ fr : Except Unit (List Char),
      decrypt_message fr codes =
        match fr with
        | .error _ => .error ()
        | .ok bs => .ok (decode bs codes)) := by
  have happ := decodeLoop_append_of_consumed codes bits [] tail hconsumed
  have hleft : (decodeLoop codes tail []).2 = tail := by
    have := decodeLoop_no_output codes tail [] hnomatch
    simpa using this
  refine ⟨?_, ?_, ?_⟩
  · unfold decode
    rcases Decidable.em (codes.isEmpty = true) with hc | hc
    · simp [hc]
    · simp only [Bool.or_eq_true, List.isEmpty_eq_true]
      rcases Decidable.em (bits = []) with hb | hb
      · subst hb
        simp only [List.nil_append]
        rcases Decidable.em (tail = []) with ht | ht
        · simp [ht]
        · simp only [List.isEmpty_eq_true] at hc
          simp [ht, hc, hnomatch]
      · have hbt : bits ++ tail ≠ [] := by
          intro h
          exact hb (List.append_eq_nil.1 h).1
        simp only [List.isEmpty_eq_true] at hc
        simp only [hb, hbt, hc, or_self, if_false]
        rw [happ, hnomatch]
        simp
  · rw [happ]
    exact hleft
  · intro fr
    cases fr with
    | error e => rfl
    | ok bs => rfl

/-- C2 amended witness: concrete instance with table `{'a': "0"}`, consumed
part `"0"` and unmatched tail `"1"`. -/
theorem C2_decode_tail_amended_witness :
    (decodeLoop [(('a' : Char), ['0'])] ['0'] []).2 = [] ∧
    (decodeLoop [(('a' : Char), ['0'])] ['1'] []).1 = [] ∧
    decode (['0'] ++ ['1']) [(('a' : Char), ['0'])] = decode ['0'] [(('a' : Char), ['0'])] :=
  ⟨by decide, by decide,
   (C2_decode_tail_amended [(('a' : Char), ['0'])] ['0'] ['1'] (by decide) (by decide)).1⟩

/- #### C8: single distinct symbol -/

/-- Membership in the first-occurrence list agrees with membership in the
text. -/
theorem mem_firstOccs : ∀ (l : List Char) (c : Char), c ∈ firstOccs l ↔ c ∈ l := by
  intro l
  induction l with
  | nil => intro c; simp [firstOccs]
  | cons b t ih =>
    intro c
    simp only [firstOccs, List.mem_cons, List.mem_filter]
    constructor
    · rintro (rfl | ⟨hm, _⟩)
      · exact Or.inl rfl
      · exact Or.inr ((ih c).1 hm)
    · rintro (rfl | hm)
      · exact Or.inl rfl
      · by_cases hcb : c = b
        · exact Or.inl hcb
        · refine Or.inr ⟨(ih c).2 hm, ?_⟩
          simp [hcb]

/-- The first-occurrence list of a repeated single character is that
character alone. -/
theorem firstOccs_replicate (c : Char) : ∀ L, firstOccs (List.replicate (L + 1) c) = [c] := by
  intro L
  induction L with
  | zero => rfl
  | succ n ih =>
    rw [List.replicate_succ, firstOccs, ih]
    simp

/-- Flat-mapping a function over a repeated character repeats the image. -/
theorem flatMap_replicate_single (c : Char) (f : Char → List Char) (b : Char)
    (hc : f c = [b]) : ∀ L, (List.replicate L c).flatMap f = List.replicate L b := by
  intro L
  induction L with
  | zero => rfl
  | succ n ih =>
    rw [List.replicate_succ, List.replicate_succ]
    simp only [List.flatMap_cons, hc, ih]
    rfl

/-- Decoding a run of `'0'` bits against the single-entry table recovers the
repeated character. -/
theorem decodeLoop_replicate_single (c : Char) :
    ∀ L, decodeLoop [(c, ['0'])] (List.replicate L '0') [] = (List.replicate L c, []) := by
  intro L
  induction L with
  | zero => rfl
  | succ n ih =>
    rw [List.replicate_succ, List.replicate_succ]
    have hrc : reverseCodes [(c, ['0'])] ([] ++ ['0']) = some c := by
      simp [reverseCodes]
    simp only [decodeLoop, hrc, ih]

/-- C8: the single-distinct-symbol special case assigns the one-bit code
`"0"`; `encode` of `c` repeated `L + 1` times yields the table `{c: "0"}` and
the bitstring `"0" * (L + 1)`, and `decode` inverts it; in particular
`encode("aaa")` yields `{a: "0"}` with `"000"` and `decode("000", {a: "0"})`
is `"aaa"`. -/
theorem C8_single_symbol (c : Char) (L : Nat) :
    encode (List.replicate (L + 1) c) = (List.replicate (L + 1) '0', [(c, ['0'])]) ∧
    decode (List.replicate (L + 1) '0') [(c, ['0'])] = List.replicate (L + 1) c ∧
    encode (List.replicate 3 'a') = (List.replicate 3 '0', [(('a' : Char), ['0'])]) ∧
    decode ['0', '0', '0'] [(('a' : Char), ['0'])] = ['a', 'a', 'a'] := by
  refine ⟨?_, ?_, by decide, by decide⟩
  · have hfreq : build_frequency_table (List.replicate (L + 1) c) = [(c, L + 1)] := by
      unfold build_frequency_table
      rw [firstOccs_replicate]
      simp [List.count_replicate]
    have hne : (List.replicate (L + 1) c).isEmpty = false := by
      rw [List.replicate_succ]
      rfl
    unfold encode encodeWith
    rw [hne, hfreq]
    simp only [Bool.false_eq_true, if_false]
    have htree : build_huffman_tree (fun i => i) [(c, L + 1)] = Htree.leaf c (L + 1) := rfl
    rw [htree]
    have hcodes : build_codes (Htree.leaf c (L + 1)) [] = [(c, ['0'])] := rfl
    rw [hcodes]
    have hget : dictGet [(c, ['0'])] c = some ['0'] := by simp [dictGet]
    rw [flatMap_replicate_single c _ '0' (by rw [hget]; rfl)]
  · unfold decode
    have h0 : (List.replicate (L + 1) '0').isEmpty = false := by
      rw [List.replicate_succ]
      rfl
    rw [h0]
    simp only [Bool.false_or, List.isEmpty_eq_true, Bool.false_eq_true, if_false]
    rw [decodeLoop_replicate_single]
    simp

/- #### C6: shared-key symmetry and caching -/

/-- `pyStrLt` is asymmetric. -/
theorem pyStrLt_asymm : ∀ (a b : List Char), pyStrLt a b = true → pyStrLt b a = false := by
  intro a
  induction a with
  | nil =>
    intro b h
    cases b with
    | nil => cases h
    | cons c cs => rfl
  | cons x xs ih =>
    intro b h
    cases b with
    | nil => cases h
    | cons y ys =>
      simp only [pyStrLt, Bool.or_eq_true, Bool.and_eq_true, decide_eq_true_eq] at h
      rcases h with h | ⟨hnlt, hrest⟩
      · have h1 : ¬ y < x := lt_asymm h
        simp [pyStrLt, h1, h]
      · have h3 := ih ys hrest
        simp [pyStrLt, hnlt, h3]

/-- Mutually non-smaller strings are equal. -/
theorem pyStrLt_antisymm : ∀ (a b : List Char),
    pyStrLt a b = false → pyStrLt b a = false → a = b := by
  intro a
  induction a with
  | nil =>
    intro b h1 _
    cases b with
    | nil => rfl
    | cons c cs => cases h1
  | cons x xs ih =>
    intro b h1 h2
    cases b with
    | nil => cases h2
    | cons y ys =>
      simp only [pyStrLt, Bool.or_eq_false_iff, Bool.and_eq_false_iff,
        decide_eq_false_iff_not, not_not] at h1 h2
      have hxy : ¬ x < y := h1.1
      have hyx : ¬ y < x := h2.1
      have hxyeq : x = y := le_antisymm (not_lt.1 hyx) (not_lt.1 hxy)
      subst hxyeq
      have hrest1 : pyStrLt xs ys = false := by
        rcases h1.2 with h | h
        · exact absurd h hyx
        · exact h
      have hrest2 : pyStrLt ys xs = false := by
        rcases h2.2 with h | h
        · exact absurd h hxy
        · exact h
      rw [ih ys hrest1 hrest2]

/-- The canonical pair key is symmetric in its two cities. -/
theorem canonPair_comm (a b : List Char) : canonPair a b = canonPair b a := by
  unfold canonPair
  rcases hab : pyStrLt a b with _ | _
  · rcases hba : pyStrLt b a with _ | _
    · rw [pyStrLt_antisymm a b hab hba]
    · simp
  · rw [pyStrLt_asymm a b hab]
    simp

/-- Looking a key up right after `dict[k] = v` yields `v` (append case). -/
theorem dictGet_append_self {α β : Type} [DecidableEq α] :
    ∀ (m : List (α × β)) (k : α) (v : β),
      (m.find? (fun p => p.1 = k)) = none → dictGet (m ++ [(k, v)]) k = some v := by
  intro m k v hnone
  unfold dictGet
  rw [List.find?_append, hnone]
  simp

/-- Looking a key up right after `dict[k] = v` yields `v` (overwrite case). -/
theorem dictGet_overwrite_self {α β : Type} [DecidableEq α] :
    ∀ (m : List (α × β)) (k : α) (v : β),
      (m.find? (fun p => p.1 = k)).isSome →
      dictGet (m.map (fun p => if p.1 = k then (k, v) else p)) k = some v := by
  intro m k v hsome
  induction m with
  | nil => simp [List.find?] at hsome
  | cons p rest ih =>
    by_cases hpk : p.1 = k
    · unfold dictGet
      simp only [List.map_cons, if_pos hpk]
      rw [List.find?_cons_of_pos _ (by simp)]
      rfl
    · have hsome2 : (rest.find? (fun q => q.1 = k)).isSome := by
        rw [List.find?_cons_of_neg _ (by simpa using hpk)] at hsome
        exact hsome
      unfold dictGet
      simp only [List.map_cons, if_neg hpk]
      rw [List.find?_cons_of_neg _ (by simpa using hpk)]
      exact ih hsome2

/-- `dict[k] = v` followed by a lookup of `k` yields `v`. -/
theorem dictGet_dictSet_self {α β : Type} [DecidableEq α]
    (m : List (α × β)) (k : α) (v : β) : dictGet (dictSet m k v) k = some v := by
  unfold dictSet
  rcases hfind : (m.find? (fun p => p.1 = k)) with _ | q
  · simp only [hfind, Option.isSome_none, Bool.false_eq_true, if_false]
    exact dictGet_append_self m k v hfind
  · simp only [hfind, Option.isSome_some, if_true]
    exact dictGet_overwrite_self m k v (by rw [hfind]; rfl)

/-- `_key_exchange_sync` unfolded: the two derived keys and the store update. -/
theorem key_exchange_sync_eq (st : CryptoState) (c1 c2 : List Char) (p1 p2 : Nat) :
    key_exchange_sync st c1 c2 p1 p2 =
      ((derive_fernet_key ((2 ^ p2 % (2 ^ 256 - 189)) ^ p1 % (2 ^ 256 - 189)),
        derive_fernet_key ((2 ^ p1 % (2 ^ 256 - 189)) ^ p2 % (2 ^ 256 - 189))),
       ⟨dictSet st.shared_secrets (canonPair c1 c2)
          (derive_fernet_key ((2 ^ p2 % (2 ^ 256 - 189)) ^ p1 % (2 ^ 256 - 189)))⟩) := rfl

/-- A derived Fernet key (base64 of 32 bytes) is never the empty byte string,
so the cache's truthiness test accepts it. -/
theorem derive_fernet_key_ne_nil (s : Nat) : derive_fernet_key s ≠ [] := by
  unfold derive_fernet_key toBytesBE
  intro h
  have hlen := congrArg List.length h
  simp only [List.length_nil] at hlen
  revert hlen
  rw [show List.range 32 = 0 :: 1 :: 2 :: List.range' 3 29 from by decide]
  simp [b64urlEncode]

/-- C6: `establish_shared_key` is symmetric and caching — after a first call
for `(A, B)`, a second call with either argument order returns the bit-same
key and leaves the key store untouched, with no re-derivation. -/
theorem C6_shared_key_symmetric_cached (A B : List Char) (st : CryptoState)
    (r1 r2 s1 s2 : Nat) :
    (establish_shared_key (establish_shared_key st A B r1 r2).2 B A s1 s2).1 =
      (establish_shared_key st A B r1 r2).1 ∧
    (establish_shared_key (establish_shared_key st A B r1 r2).2 B A s1 s2).2 =
      (establish_shared_key st A B r1 r2).2 ∧
    (establish_shared_key (establish_shared_key st A B r1 r2).2 A B s1 s2).1 =
      (establish_shared_key st A B r1 r2).1 ∧
    (establish_shared_key (establish_shared_key st A B r1 r2).2 A B s1 s2).2 =
      (establish_shared_key st A B r1 r2).2 := by
  have hfresh : ∀ (st' : CryptoState) (k : List Char),
      get_shared_key st' A B = some k → k ≠ [] →
      (∀ p1 p2, establish_shared_key st' A B p1 p2 = (k, st')) ∧
      (∀ p1 p2, establish_shared_key st' B A p1 p2 = (k, st')) := by
    intro st' k hget hne
    have hgetBA : get_shared_key st' B A = some k := by
      unfold get_shared_key at hget ⊢
      rw [canonPair_comm B A]
      exact hget
    have hkE : k.isEmpty = false := by
      cases k with
      | nil => exact absurd rfl hne
      | cons c cs => rfl
    constructor
    · intro p1 p2
      unfold establish_shared_key
      rw [hget]
      simp [hkE]
    · intro p1 p2
      unfold establish_shared_key
      rw [hgetBA]
      simp [hkE]
  have hafter : ∃ k, get_shared_key (establish_shared_key st A B r1 r2).2 A B = some k ∧
      k ≠ [] ∧ (establish_shared_key st A B r1 r2).1 = k := by
    rcases hget : get_shared_key st A B with _ | k0
    · have hE : establish_shared_key st A B r1 r2 =
          ((key_exchange_sync st A B r1 r2).1.1, (key_exchange_sync st A B r1 r2).2) := by
        unfold establish_shared_key
        rw [hget]
      rw [hE, key_exchange_sync_eq]
      refine ⟨_, ?_, derive_fernet_key_ne_nil _, rfl⟩
      unfold get_shared_key
      exact dictGet_dictSet_self _ _ _
    · by_cases hk0 : k0.isEmpty = true
      · have hE : establish_shared_key st A B r1 r2 =
            ((key_exchange_sync st A B r1 r2).1.1, (key_exchange_sync st A B r1 r2).2) := by
          unfold establish_shared_key
          rw [hget]
          simp [hk0]
        rw [hE, key_exchange_sync_eq]
        refine ⟨_, ?_, derive_fernet_key_ne_nil _, rfl⟩
        unfold get_shared_key
        exact dictGet_dictSet_self _ _ _
      · have hE : establish_shared_key st A B r1 r2 = (k0, st) := by
          unfold establish_shared_key
          rw [hget]
          simp [hk0]
        rw [hE]
        refine ⟨k0, hget, ?_, rfl⟩
        intro hnil
        rw [hnil] at hk0
        exact hk0 rfl
  rcases hafter with ⟨k, hget, hne, hkey⟩
  have h2 := hfresh _ k hget hne
  refine ⟨?_, ?_, ?_, ?_⟩
  · rw [h2.2 s1 s2]
    exact hkey.symm
  · rw [h2.2 s1 s2]
  · rw [h2.1 s1 s2]
    exact hkey.symm
  · rw [h2.1 s1 s2]

/- #### C10: topology load is not atomic on error -/

/-- An out-of-range endpoint anywhere in the edge list makes the adjacency
build raise `KeyError`. -/
theorem buildAdjacency_error (n : Nat) :
    ∀ (edges : List NetEdge) (adj : List (List (Nat × Nat))),
      (∃ e ∈ edges, n ≤ e.u ∨ n ≤ e.v) →
      ∃ a, buildAdjacency n edges adj = .error a := by
  intro edges
  induction edges with
  | nil =>
    rintro adj ⟨e, he, _⟩
    cases he
  | cons e rest ih =>
    rintro adj ⟨f, hf, hbad⟩
    by_cases hu : e.u < n
    · by_cases hv : e.v < n
      · have hfr : f ∈ rest := by
          rcases List.mem_cons.1 hf with rfl | h
          · exact absurd hbad (by omega)
          · exact h
        rcases ih (adjAppend (adjAppend adj e.u (e.v, e.w)) e.v (e.u, e.w)) ⟨f, hfr, hbad⟩
          with ⟨a, ha⟩
        refine ⟨a, ?_⟩
        simp only [buildAdjacency, if_pos hu, if_pos hv]
        exact ha
      · refine ⟨adjAppend adj e.u (e.v, e.w), ?_⟩
        simp only [buildAdjacency, if_pos hu, if_neg hv]
    · refine ⟨adj, ?_⟩
      simp only [buildAdjacency, if_neg hu]

/-- C10: a load with an invalid edge endpoint raises after the cities, edges
and both identity maps were already replaced, while the MST edge list and MST
adjacency keep their stale pre-load values. -/
theorem C10_load_topology_not_atomic (st : RoutingState) (cities : List City)
    (edges : List NetEdge)
    (hbad : ∃ e ∈ edges, cities.length ≤ e.u ∨ cities.length ≤ e.v) :
    (load_topology st cities edges).2 = true ∧
    (load_topology st cities edges).1.cities = cities ∧
    (load_topology st cities edges).1.edges = edges ∧
    (load_topology st cities edges).1.city_to_index =
      cities.enum.map (fun (p : Nat × City) => (p.2.name, p.1)) ∧
    (load_topology st cities edges).1.index_to_city =
      cities.enum.map (fun (p : Nat × City) => (p.1, p.2.name)) ∧
    (load_topology st cities edges).1.mst_edges = st.mst_edges ∧
    (load_topology st cities edges).1.mst_adjacency = st.mst_adjacency := by
  rcases buildAdjacency_error cities.length edges (List.replicate cities.length []) hbad
    with ⟨a, ha⟩
  unfold load_topology
  rw [ha]
  exact ⟨rfl, rfl, rfl, rfl, rfl, rfl, rfl⟩

/-- C10 witness: one city but an edge with endpoint 5; the load errors and the
stale MST survives. -/
theorem C10_load_topology_not_atomic_witness :
    (load_topology ⟨[], [], [⟨0, 1, 7⟩], [], [], [], [[(1, 7)]]⟩
        [⟨['A']⟩] [⟨5, 0, 1⟩]).2 = true ∧
    (load_topology ⟨[], [], [⟨0, 1, 7⟩], [], [], [], [[(1, 7)]]⟩
        [⟨['A']⟩] [⟨5, 0, 1⟩]).1.mst_edges = [⟨0, 1, 7⟩] := by
  have h := C10_load_topology_not_atomic ⟨[], [], [⟨0, 1, 7⟩], [], [], [], [[(1, 7)]]⟩
    [⟨['A']⟩] [⟨5, 0, 1⟩] (by decide)
  exact ⟨h.1, h.2.2.2.2.2.1⟩

/- #### C5: send_encrypted failure paths -/

/-- The best-effort error notification is at most one send, to the sender. -/
theorem errNotify_shape (active : List (List Char)) (sender : List Char) :
    errNotify active sender = [] ∨
    errNotify active sender = [Eff.send sender Payload.errorToSender] := by
  unfold errNotify
  by_cases h : sender ∈ active
  · right
    simp [h]
  · left
    simp [h]

/-- C5: every failure path of `send_encrypted_message` — topology not loaded,
empty route, or an internal failure of key agreement, encryption or
serialisation — degrades to the best-effort error notification to the
original sender only; error payloads are never sent to anyone else and the
notification path tears down no channel. -/
theorem C5_send_encrypted_failure_paths (rst : RoutingState) (env : SendEnv)
    (fc tc : List Char) :
    ((rst.cities = [] ∨ find_route rst fc tc = [] ∨ env.keyOk = false ∨
        env.encOk = false ∨ env.jsonOk = false) →
      send_encrypted_message rst env fc tc = errNotify env.activeKeys fc) ∧
    (errNotify env.activeKeys fc = [] ∨
      errNotify env.activeKeys fc = [Eff.send fc Payload.errorToSender]) ∧
    (∀ c, Eff.send c Payload.errorToSender ∈ send_encrypted_message rst env fc tc →
      c = fc) ∧
    (∀ c, Eff.evict c ∉ errNotify env.activeKeys fc) := by
  have hshape := errNotify_shape env.activeKeys fc
  have hnoevict : ∀ c, Eff.evict c ∉ errNotify env.activeKeys fc := by
    intro c hmem
    rcases hshape with h | h <;> rw [h] at hmem <;> simp at hmem
  have herrmem : ∀ c, Eff.send c Payload.errorToSender ∈ errNotify env.activeKeys fc →
      c = fc := by
    intro c hmem
    rcases hshape with h | h
    · rw [h] at hmem
      exact absurd hmem (List.not_mem_nil _)
    · rw [h] at hmem
      have h2 := List.mem_singleton.1 hmem
      injection h2 with h3 h4
  by_cases hc : rst.cities.isEmpty = true
  · have hsend : send_encrypted_message rst env fc tc = errNotify env.activeKeys fc := by
      simp only [send_encrypted_message, hc, if_true]
    refine ⟨fun _ => hsend, hshape, ?_, hnoevict⟩
    intro c hmem
    rw [hsend] at hmem
    exact herrmem c hmem
  · have hc' : rst.cities.isEmpty = false := by simpa using hc
    by_cases hr : (find_route rst fc tc).isEmpty = true
    · have hsend : send_encrypted_message rst env fc tc = errNotify env.activeKeys fc := by
        simp only [send_encrypted_message, hc', hr, Bool.false_eq_true, if_false, if_true]
      refine ⟨fun _ => hsend, hshape, ?_, hnoevict⟩
      intro c hmem
      rw [hsend] at hmem
      exact herrmem c hmem
    · have hr' : (find_route rst fc tc).isEmpty = false := by simpa using hr
      by_cases hk : env.keyOk = false
      · have hsend : send_encrypted_message rst env fc tc = errNotify env.activeKeys fc := by
          simp only [send_encrypted_message, hc', hr', hk, Bool.false_eq_true, if_false, if_true]
        refine ⟨fun _ => hsend, hshape, ?_, hnoevict⟩
        intro c hmem
        rw [hsend] at hmem
        exact herrmem c hmem
      · have hk' : env.keyOk = true := by
          revert hk
          cases env.keyOk <;> simp
        by_cases he : env.encOk = false
        · have hsend : send_encrypted_message rst env fc tc = errNotify env.activeKeys fc := by
            simp only [send_encrypted_message, hc', hr', hk', he,
              Bool.false_eq_true, Bool.true_eq_false, if_false, if_true]
          refine ⟨fun _ => hsend, hshape, ?_, hnoevict⟩
          intro c hmem
          rw [hsend] at hmem
          exact herrmem c hmem
        · have he' : env.encOk = true := by
            revert he
            cases env.encOk <;> simp
          by_cases hj : env.jsonOk = false
          · have hsend : send_encrypted_message rst env fc tc = errNotify env.activeKeys fc := by
              simp only [send_encrypted_message, hc', hr', hk', he', hj,
                Bool.false_eq_true, Bool.true_eq_false, if_false, if_true]
            refine ⟨fun _ => hsend, hshape, ?_, hnoevict⟩
            intro c hmem
            rw [hsend] at hmem
            exact herrmem c hmem
          · have hj' : env.jsonOk = true := by
              revert hj
              cases env.jsonOk <;> simp
            refine ⟨?_, hshape, ?_, hnoevict⟩
            · rintro (h | h | h | h | h)
              · rw [h] at hc'
                cases hc'
              · rw [h] at hr'
                cases hr'
              · rw [h] at hk'
                cases hk'
              · rw [h] at he'
                cases he'
              · rw [h] at hj'
                cases hj'
            · intro c hmem
              simp only [send_encrypted_message, hc', hr', hk', he', hj',
                Bool.false_eq_true, Bool.true_eq_false, if_false, if_true] at hmem
              rw [List.mem_append, List.mem_append] at hmem
              rcases hmem with (hmem | hmem) | hmem
              · rcases List.mem_map.1 hmem with ⟨d, _, hd⟩
                cases hd
              · rcases List.mem_map.1 hmem with ⟨d, _, hd⟩
                cases hd
              · by_cases hm : monitorAdmin ∈ env.activeKeys ∧
                    monitorAdmin ∉ find_route rst fc tc
                · rw [if_pos hm] at hmem
                  rcases List.mem_cons.1 hmem with hd | hd
                  · cases hd
                  · by_cases hmo : env.monitorOutcome.ok = false ∧
                        env.monitorOutcome.closedIndicator = true
                    · rw [if_pos hmo] at hd
                      have hd2 := List.mem_singleton.1 hd
                      cases hd2
                    · rw [if_neg hmo] at hd
                      cases hd
                · rw [if_neg hm] at hmem
                  cases hmem

/-- C5 witness: with no topology loaded, the call degrades to the single
error notification to the sender. -/
theorem C5_send_encrypted_failure_paths_witness :
    send_encrypted_message initialRoutingState
      ⟨[['A']], true, true, true, fun _ => ⟨true, false⟩, ⟨true, false⟩⟩ ['A'] ['B'] =
      errNotify [['A']] ['A'] :=
  (C5_send_encrypted_failure_paths initialRoutingState
    ⟨[['A']], true, true, true, fun _ => ⟨true, false⟩, ⟨true, false⟩⟩ ['A'] ['B']).1
    (Or.inl rfl)

/- #### C1: Huffman round-trip -/

/-- Every word is a prefix of itself. -/
theorem isPref_refl {α : Type} (a : List α) : isPref a a := ⟨[], List.append_nil a⟩

/-- Prefix extension: a prefix of the extension base is a prefix of the
extended word. -/
theorem isPref_of_append {α : Type} (a b t : List α) (h : isPref (a ++ t) b) :
    isPref a b := by
  rcases h with ⟨s, hs⟩
  exact ⟨t ++ s, by rw [← hs, List.append_assoc]⟩

/-- Words extending the same stem by different bits are incomparable. -/
theorem incomp_of_distinct_bits (pre w1 w2 : List Char) (b1 b2 : Char)
    (h1 : isPref (pre ++ [b1]) w1) (h2 : isPref (pre ++ [b2]) w2) (hne : b1 ≠ b2) :
    incomp w1 w2 := by
  rcases h1 with ⟨s1, hs1⟩
  rcases h2 with ⟨s2, hs2⟩
  constructor
  · rintro ⟨t, ht⟩
    rw [← hs1, ← hs2] at ht
    simp only [List.append_assoc] at ht
    have := List.append_cancel_left ht
    simp only [List.singleton_append, List.cons_append] at this
    exact hne (List.cons_eq_cons.1 this).1
  · rintro ⟨t, ht⟩
    rw [← hs1, ← hs2] at ht
    simp only [List.append_assoc] at ht
    have := List.append_cancel_left ht
    simp only [List.singleton_append, List.cons_append] at this
    exact hne ((List.cons_eq_cons.1 this).1).symm

/-- Every code word produced under a non-empty running prefix extends it. -/
theorem build_codes_extends : ∀ (t : Htree) (pre : List Char), pre ≠ [] →
    ∀ p ∈ build_codes t pre, isPref pre p.2 := by
  intro t
  induction t with
  | leaf c f =>
    intro pre hne p hp
    rcases List.mem_singleton.1 hp with rfl
    have hE : pre.isEmpty = false := by
      cases pre with
      | nil => exact absurd rfl hne
      | cons a as => rfl
    simp only [build_codes, hE]
    exact isPref_refl pre
  | node f l r ihl ihr =>
    intro pre _ p hp
    rcases List.mem_append.1 hp with h | h
    · exact isPref_of_append pre p.2 ['0'] (ihl (pre ++ ['0']) (by simp) p h)
    · exact isPref_of_append pre p.2 ['1'] (ihr (pre ++ ['1']) (by simp) p h)

/-- No code word is empty. -/
theorem build_codes_ne_nil : ∀ (t : Htree) (pre : List Char),
    ∀ p ∈ build_codes t pre, p.2 ≠ [] := by
  intro t
  induction t with
  | leaf c f =>
    intro pre p hp
    rcases List.mem_singleton.1 hp with rfl
    cases pre with
    | nil => simp [build_codes]
    | cons a as => simp [build_codes]
  | node f l r ihl ihr =>
    intro pre p hp
    rcases List.mem_append.1 hp with h | h
    · exact ihl (pre ++ ['0']) p h
    · exact ihr (pre ++ ['1']) p h

/-- The code words of any subtree are pairwise incomparable (no word a prefix
of another): distinct leaves of a binary tree have incomparable paths. -/
theorem build_codes_pairwise : ∀ (t : Htree) (pre : List Char),
    (build_codes t pre).Pairwise (fun e1 e2 => incomp e1.2 e2.2) := by
  intro t
  induction t with
  | leaf c f => intro pre; simp [build_codes]
  | node f l r ihl ihr =>
    intro pre
    rw [build_codes, List.pairwise_append]
    refine ⟨ihl _, ihr _, ?_⟩
    intro e1 h1 e2 h2
    exact incomp_of_distinct_bits pre e1.2 e2.2 '0' '1'
      (build_codes_extends l (pre ++ ['0']) (by simp) e1 h1)
      (build_codes_extends r (pre ++ ['1']) (by simp) e2 h2)
      (by decide)

/-- The keys of the code table are the tree's leaves, in traversal order. -/
theorem build_codes_keys : ∀ (t : Htree) (pre : List Char),
    (build_codes t pre).map Prod.fst = leavesList t := by
  intro t
  induction t with
  | leaf c f => intro pre; simp [build_codes, leavesList]
  | node f l r ihl ihr =>
    intro pre
    simp only [build_codes, leavesList, List.map_append, ihl, ihr]

/-- `popMin` returns `none` exactly on the empty heap. -/
theorem popMin_eq_none_iff : ∀ (l : List (Nat × Nat × Htree)),
    popMin l = none ↔ l = [] := by
  intro l
  cases l with
  | nil => simp [popMin]
  | cons x xs =>
    simp only [popMin]
    constructor
    · intro h
      cases hx : popMin xs with
      | none => rw [hx] at h; cases h
      | some p =>
        rcases p with ⟨m, r⟩
        simp only [hx] at h
        by_cases hle : heapKeyLe x m
        · rw [if_pos hle] at h; cases h
        · rw [if_neg hle] at h; cases h
    · intro h; cases h

/-- Popping the minimum is a permutation: the heap is the popped element plus
the remainder. -/
theorem popMin_perm : ∀ (l : List (Nat × Nat × Htree)) (x : Nat × Nat × Htree)
    (rest : List (Nat × Nat × Htree)), popMin l = some (x, rest) → l.Perm (x :: rest) := by
  intro l
  induction l with
  | nil => intro x rest h; cases h
  | cons a xs ih =>
    intro x rest h
    simp only [popMin] at h
    cases hx : popMin xs with
    | none =>
      rw [hx] at h
      have hxs : xs = [] := (popMin_eq_none_iff xs).1 hx
      injection h with h2
      injection h2 with h3 h4
      subst h3
      subst h4
      subst hxs
      exact List.Perm.refl _
    | some p =>
      rcases p with ⟨m, r⟩
      simp only [hx] at h
      by_cases hle : heapKeyLe a m
      · rw [if_pos hle] at h
        injection h with h2
        injection h2 with h3 h4
        subst h3
        subst h4
        exact List.Perm.refl _
      · rw [if_neg hle] at h
        injection h with h2
        injection h2 with h3 h4
        subst h3
        subst h4
        have hperm := ih m r hx
        exact (hperm.cons a).trans (List.Perm.swap m a r)
  
/-- Flattening singleton images is mapping. -/
theorem flatten_map_singleton {α β : Type} (g : α → β) :
    ∀ (l : List α), (l.map (fun a => [g a])).flatten = l.map g := by
  intro l
  induction l with
  | nil => rfl
  | cons a t ih => simp [ih]

/-- The merge loop preserves the multiset of leaf characters across the heap. -/
theorem mergeLoop_leaves (σ : Nat → Nat) :
    ∀ (fuel : Nat) (heap : List (Nat × Nat × Htree)) (ctr : Nat), heap ≠ [] →
      heap.length ≤ fuel + 1 →
      (leavesList (mergeLoop σ fuel heap ctr)).Perm
        ((heap.map (fun e => leavesList e.2.2)).flatten) := by
  intro fuel
  induction fuel with
  | zero =>
    intro heap ctr hne hlen
    cases heap with
    | nil => exact absurd rfl hne
    | cons h t =>
      cases t with
      | nil => simp [mergeLoop]
      | cons h2 t2 => simp at hlen
  | succ f ih =>
    intro heap ctr hne hlen
    cases hpop : popMin heap with
    | none => exact absurd ((popMin_eq_none_iff heap).1 hpop) hne
    | some pr =>
      rcases pr with ⟨x, rest⟩
      have hperm1 := popMin_perm heap x rest hpop
      cases hpop2 : popMin rest with
      | none =>
        have hrest : rest = [] := (popMin_eq_none_iff rest).1 hpop2
        subst hrest
        cases heap with
        | nil => exact absurd rfl hne
        | cons h t =>
          have hres : mergeLoop σ (f + 1) (h :: t) ctr = x.2.2 := by
            simp only [mergeLoop, hpop, hpop2]
          rw [hres]
          have := (hperm1.map (fun e => leavesList e.2.2)).flatten
          simp only [List.map_cons, List.map_nil, List.flatten_cons, List.flatten_nil,
            List.append_nil] at this
          exact this.symm
      | some pr2 =>
        rcases pr2 with ⟨y, rest2⟩
        have hperm2 := popMin_perm rest y rest2 hpop2
        cases heap with
        | nil => exact absurd rfl hne
        | cons h t =>
          have hres : mergeLoop σ (f + 1) (h :: t) ctr =
              mergeLoop σ f ((x.2.2.hfreq + y.2.2.hfreq, σ ctr,
                Htree.node (x.2.2.hfreq + y.2.2.hfreq) x.2.2 y.2.2) :: rest2) (ctr + 1) := by
            simp only [mergeLoop, hpop, hpop2]
          rw [hres]
          have hlen2 : ((x.2.2.hfreq + y.2.2.hfreq, σ ctr,
              Htree.node (x.2.2.hfreq + y.2.2.hfreq) x.2.2 y.2.2) :: rest2).length ≤ f + 1 := by
            have l1 := hperm1.length_eq
            have l2 := hperm2.length_eq
            simp only [List.length_cons] at l1 l2 hlen ⊢
            omega
          have hrec := ih _ (ctr + 1) (by simp) hlen2
          refine hrec.trans ?_
          have e1 := (hperm1.map (fun e => leavesList e.2.2)).flatten
          have e2 := (hperm2.map (fun e => leavesList e.2.2)).flatten
          simp only [List.map_cons, List.flatten_cons] at e1 e2 ⊢
          refine List.Perm.trans ?_ e1.symm
          refine List.Perm.trans ?_ ((List.Perm.append_left _ e2).symm)
          simp only [leavesList, List.append_assoc]
          exact List.Perm.refl _

/-- The leaves of the built Huffman tree are exactly the frequency-table
keys, as a multiset. -/
theorem build_huffman_tree_leaves (σ : Nat → Nat) :
    ∀ (freq : List (Char × Nat)), freq ≠ [] →
      (leavesList (build_huffman_tree σ freq)).Perm (freq.map Prod.fst) := by
  intro freq hne
  cases freq with
  | nil => exact absurd rfl hne
  | cons p t =>
    cases t with
    | nil =>
      rcases p with ⟨c, n⟩
      simp [build_huffman_tree, leavesList]
    | cons q t2 =>
      have hstep : build_huffman_tree σ (p :: q :: t2) =
          mergeLoop σ ((p :: q :: t2).enum.map
              (fun pr => (pr.2.2, σ pr.1, Htree.leaf pr.2.1 pr.2.2))).length
            ((p :: q :: t2).enum.map
              (fun pr => (pr.2.2, σ pr.1, Htree.leaf pr.2.1 pr.2.2)))
            (p :: q :: t2).length := by
        rcases p with ⟨c1, n1⟩
        rcases q with ⟨c2, n2⟩
        rfl
      rw [hstep]
      have hne2 : ((p :: q :: t2).enum.map
          (fun pr => (pr.2.2, σ pr.1, Htree.leaf pr.2.1 pr.2.2))) ≠ [] := by
        simp [List.enum]
      have hperm := mergeLoop_leaves σ
        ((p :: q :: t2).enum.map
          (fun pr => (pr.2.2, σ pr.1, Htree.leaf pr.2.1 pr.2.2))).length
        ((p :: q :: t2).enum.map
          (fun pr => (pr.2.2, σ pr.1, Htree.leaf pr.2.1 pr.2.2)))
        (p :: q :: t2).length hne2 (Nat.le_succ _)
      refine hperm.trans ?_
      rw [List.map_map]
      have : ((p :: q :: t2).enum.map
          ((fun e : Nat × Nat × Htree => leavesList e.2.2) ∘
            (fun pr : Nat × Char × Nat => (pr.2.2, σ pr.1, Htree.leaf pr.2.1 pr.2.2)))) =
          (p :: q :: t2).enum.map (fun pr => [pr.2.1]) := by
        apply List.map_congr_left
        intro a _
        rfl
      rw [this, flatten_map_singleton (fun pr : Nat × Char × Nat => pr.2.1)]
      have hsnd : (p :: q :: t2).enum.map (fun pr : Nat × Char × Nat => pr.2.1) =
          (p :: q :: t2).map Prod.fst := by
        have h1 : (p :: q :: t2).enum.map (fun pr : Nat × Char × Nat => pr.2.1) =
            ((p :: q :: t2).enum.map Prod.snd).map Prod.fst := by
          rw [List.map_map]
          rfl
        rw [h1, List.enum_map_snd]
      rw [hsnd]

/-- The first-occurrence list never repeats a character. -/
theorem firstOccs_nodup : ∀ (l : List Char), (firstOccs l).Nodup := by
  intro l
  induction l with
  | nil => exact List.nodup_nil
  | cons c rest ih =>
    rw [firstOccs, List.nodup_cons]
    constructor
    · intro hmem
      have := (List.mem_filter.1 hmem).2
      simp at this
    · exact ih.filter _

/-- With unique second components, the reversed-table lookup of a member's
code word finds that member. -/
theorem find?_snd_eq_of_nodup :
    ∀ (l : List (Char × List Char)), (l.map Prod.snd).Nodup →
      ∀ (c : Char) (w : List Char), (c, w) ∈ l →
        l.find? (fun p => p.2 = w) = some (c, w) := by
  intro l
  induction l with
  | nil => intro _ c w hmem; cases hmem
  | cons p rest ih =>
    intro hnd c w hmem
    have hmap : (List.map Prod.snd (p :: rest)) = p.2 :: List.map Prod.snd rest := rfl
    rw [hmap, List.nodup_cons] at hnd
    by_cases hp : p.2 = w
    · have hpe : p = (c, w) := by
        rcases List.mem_cons.1 hmem with h | h
        · exact h.symm
        · exfalso
          apply hnd.1
          rw [hp]
          exact List.mem_map.2 ⟨(c, w), h, rfl⟩
      rw [List.find?_cons_of_pos _ (by simpa using hp), hpe]
    · rcases List.mem_cons.1 hmem with h | h
      · exact absurd (congrArg Prod.snd h.symm) hp
      · rw [List.find?_cons_of_neg _ (by simpa using hp)]
        exact ih hnd.2 c w h

/-- Reversed-table lookup of a member's code word, under unique code words. -/
theorem reverseCodes_some_of_mem (codes : List (Char × List Char))
    (hnd : (codes.map Prod.snd).Nodup) (c : Char) (w : List Char)
    (hmem : (c, w) ∈ codes) : reverseCodes codes w = some c := by
  unfold reverseCodes
  rw [find?_snd_eq_of_nodup codes.reverse
    (by rw [List.map_reverse]; exact List.nodup_reverse.2 hnd) c w (List.mem_reverse.2 hmem)]
  rfl

/-- Reversed-table lookup misses words outside the table. -/
theorem reverseCodes_none_of_not_mem (codes : List (Char × List Char))
    (w : List Char) (hnot : w ∉ codes.map Prod.snd) : reverseCodes codes w = none := by
  unfold reverseCodes
  rw [List.find?_eq_none.2]
  · rfl
  · intro p hp
    simp only [decide_eq_true_eq]
    intro hpw
    apply hnot
    rw [← hpw]
    exact List.mem_map.2 ⟨p, List.mem_reverse.1 hp, rfl⟩

/-- Pairwise incomparability forces distinct code words. -/
theorem snd_nodup_of_pairwise_incomp (codes : List (Char × List Char))
    (hpw : codes.Pairwise (fun e1 e2 => incomp e1.2 e2.2)) :
    (codes.map Prod.snd).Nodup := by
  rw [List.Nodup, List.pairwise_map]
  refine hpw.imp ?_
  intro a b hab hEq
  exact hab.1 (hEq ▸ isPref_refl a.2)

/-- A proper prefix of a table word is not itself a table word, under
pairwise incomparability. -/
theorem reverseCodes_proper_prefix_none (codes : List (Char × List Char))
    (hpw : codes.Pairwise (fun e1 e2 => incomp e1.2 e2.2))
    (c : Char) (w : List Char) (hmem : (c, w) ∈ codes)
    (u : List Char) (hpref : isPref u w) (hne : u ≠ w) :
    reverseCodes codes u = none := by
  apply reverseCodes_none_of_not_mem
  intro hin
  rcases List.mem_map.1 hin with ⟨e, he, heq⟩
  have hcw : e ≠ (c, w) := by
    intro h
    rw [h] at heq
    exact hne heq.symm
  have hsym : Symmetric (fun e1 e2 : Char × List Char => incomp e1.2 e2.2) := by
    intro a b hab
    exact ⟨hab.2, hab.1⟩
  have hinc := List.Pairwise.forall hsym hpw he hmem hcw
  rw [heq] at hinc
  exact hinc.1 hpref

/-- Greedy decode of one code word followed by anything emits that word's
symbol and proceeds. -/
theorem decodeLoop_code_aux (codes : List (Char × List Char))
    (hpw : codes.Pairwise (fun e1 e2 => incomp e1.2 e2.2))
    (c : Char) (w : List Char) (hmem : (c, w) ∈ codes) :
    ∀ (v u : List Char), u ++ v = w → v ≠ [] → ∀ rest,
      decodeLoop codes (v ++ rest) u =
        (c :: (decodeLoop codes rest []).1, (decodeLoop codes rest []).2) := by
  intro v
  induction v with
  | nil => intro u _ hne; exact absurd rfl hne
  | cons b v2 ih =>
    intro u huv _ rest
    cases v2 with
    | nil =>
      have hcur : u ++ [b] = w := huv
      have hrc : reverseCodes codes (u ++ [b]) = some c := by
        rw [hcur]
        exact reverseCodes_some_of_mem codes (snd_nodup_of_pairwise_incomp codes hpw) c w hmem
      simp only [List.cons_append, List.nil_append, decodeLoop, hrc]
      rfl
    | cons b2 v3 =>
      have hw : (u ++ [b]) ++ (b2 :: v3) = w := by
        rw [← huv]
        simp
      have hpref : isPref (u ++ [b]) w := ⟨b2 :: v3, hw⟩
      have hne2 : u ++ [b] ≠ w := by
        intro h
        have := congrArg List.length hw
        rw [h] at this
        simp at this
      have hrc : reverseCodes codes (u ++ [b]) = none :=
        reverseCodes_proper_prefix_none codes hpw c w hmem (u ++ [b]) hpref hne2
      simp only [List.cons_append, decodeLoop, hrc]
      exact ih (u ++ [b]) hw (by simp) rest

/-- With unique keys, dict lookup of a member's key finds its value. -/
theorem find?_fst_eq_of_nodup :
    ∀ (l : List (Char × List Char)), (l.map Prod.fst).Nodup →
      ∀ (c : Char) (w : List Char), (c, w) ∈ l →
        l.find? (fun p => p.1 = c) = some (c, w) := by
  intro l
  induction l with
  | nil => intro _ c w hmem; cases hmem
  | cons p rest ih =>
    intro hnd c w hmem
    have hmap : (List.map Prod.fst (p :: rest)) = p.1 :: List.map Prod.fst rest := rfl
    rw [hmap, List.nodup_cons] at hnd
    by_cases hp : p.1 = c
    · have hpe : p = (c, w) := by
        rcases List.mem_cons.1 hmem with h | h
        · exact h.symm
        · exfalso
          apply hnd.1
          rw [hp]
          exact List.mem_map.2 ⟨(c, w), h, rfl⟩
      rw [List.find?_cons_of_pos _ (by simpa using hp), hpe]
    · rcases List.mem_cons.1 hmem with h | h
      · exact absurd (congrArg Prod.fst h.symm) hp
      · rw [List.find?_cons_of_neg _ (by simpa using hp)]
        exact ih hnd.2 c w h

/-- Dict lookup of a member's key, under unique keys. -/
theorem dictGet_some_of_mem (codes : List (Char × List Char))
    (hnd : (codes.map Prod.fst).Nodup) (c : Char) (w : List Char)
    (hmem : (c, w) ∈ codes) : dictGet codes c = some w := by
  unfold dictGet
  rw [find?_fst_eq_of_nodup codes hnd c w hmem]
  rfl

/-- Greedy decode inverts the concatenation of the table codes of a text all
of whose characters appear in the table. -/
theorem decodeLoop_flatMap (codes : List (Char × List Char))
    (hpw : codes.Pairwise (fun e1 e2 => incomp e1.2 e2.2))
    (hkeys : (codes.map Prod.fst).Nodup)
    (hwords : ∀ p ∈ codes, p.2 ≠ []) :
    ∀ (text : List Char), (∀ ch ∈ text, ch ∈ codes.map Prod.fst) →
      decodeLoop codes (text.flatMap (fun ch => (dictGet codes ch).getD [])) [] =
        (text, []) := by
  intro text
  induction text with
  | nil => intro _; rfl
  | cons ch t ih =>
    intro hmem
    rcases List.mem_map.1 (hmem ch (List.mem_cons_self ch t)) with ⟨e, he, hch⟩
    have hew : (ch, e.2) ∈ codes := by
      rw [← hch]
      exact he
    have hget : dictGet codes ch = some e.2 := dictGet_some_of_mem codes hkeys ch e.2 hew
    have hwne : e.2 ≠ [] := hwords e he
    rw [List.flatMap_cons, hget]
    simp only [Option.getD_some]
    rw [decodeLoop_code_aux codes hpw ch e.2 hew e.2 [] rfl hwne
      (t.flatMap (fun d => (dictGet codes d).getD []))]
    rw [ih (fun d hd => hmem d (List.mem_cons_of_mem ch hd))]

/-- Round-trip core, for an arbitrary heap id assignment. -/
theorem decode_encodeWith (τ : Nat → Nat) (text : List Char) :
    decode (encodeWith τ text).1 (encodeWith τ text).2 = text := by
  cases text with
  | nil => rfl
  | cons ch t =>
    have hfne : build_frequency_table (ch :: t) ≠ [] := by
      unfold build_frequency_table firstOccs
      simp
    have hkeys : (build_codes (build_huffman_tree τ (build_frequency_table (ch :: t))) []).map
        Prod.fst = leavesList (build_huffman_tree τ (build_frequency_table (ch :: t))) :=
      build_codes_keys _ []
    have hleafperm := build_huffman_tree_leaves τ (build_frequency_table (ch :: t)) hfne
    have hfreqfst : (build_frequency_table (ch :: t)).map Prod.fst = firstOccs (ch :: t) := by
      unfold build_frequency_table
      rw [List.map_map]
      have hid : (Prod.fst ∘ fun c => (c, (ch :: t).count c)) = id := rfl
      rw [hid, List.map_id]
    have hkeysperm : ((build_codes (build_huffman_tree τ (build_frequency_table (ch :: t)))
        []).map Prod.fst).Perm (firstOccs (ch :: t)) := by
      rw [hkeys, ← hfreqfst]
      exact hleafperm
    have hnodup : ((build_codes (build_huffman_tree τ (build_frequency_table (ch :: t)))
        []).map Prod.fst).Nodup :=
      hkeysperm.nodup_iff.2 (firstOccs_nodup _)
    have hpw := build_codes_pairwise (build_huffman_tree τ (build_frequency_table (ch :: t))) []
    have hwords := build_codes_ne_nil (build_huffman_tree τ (build_frequency_table (ch :: t))) []
    have hmemkeys : ∀ d ∈ (ch :: t),
        d ∈ (build_codes (build_huffman_tree τ (build_frequency_table (ch :: t))) []).map
          Prod.fst := by
      intro d hd
      rw [hkeysperm.mem_iff]
      exact (mem_firstOccs _ d).2 hd
    have hdec := decodeLoop_flatMap _ hpw hnodup hwords (ch :: t) hmemkeys
    have hE : encodeWith τ (ch :: t) =
        ((ch :: t).flatMap (fun d =>
          (dictGet (build_codes (build_huffman_tree τ (build_frequency_table (ch :: t))) [])
            d).getD []),
         build_codes (build_huffman_tree τ (build_frequency_table (ch :: t))) []) := rfl
    rw [hE]
    rcases List.mem_map.1 (hmemkeys ch (List.mem_cons_self ch t)) with ⟨⟨e1, e2⟩, he, hch⟩
    simp only at hch
    subst hch
    have hget := dictGet_some_of_mem _ hnodup e1 e2 he
    have hwne : e2 ≠ [] := hwords (e1, e2) he
    have hbits : (e1 :: t).flatMap (fun d =>
        (dictGet (build_codes (build_huffman_tree τ (build_frequency_table (e1 :: t))) [])
          d).getD []) =
        e2 ++ t.flatMap (fun d =>
          (dictGet (build_codes (build_huffman_tree τ (build_frequency_table (e1 :: t))) [])
            d).getD []) := by
      rw [List.flatMap_cons, hget]
      rfl
    have hbne : ((e1 :: t).flatMap (fun d =>
        (dictGet (build_codes (build_huffman_tree τ (build_frequency_table (e1 :: t))) [])
          d).getD [])).isEmpty = false := by
      rw [hbits]
      cases hq : e2 with
      | nil => exact absurd hq hwne
      | cons a as => rfl
    have hcodne : (build_codes (build_huffman_tree τ (build_frequency_table (e1 :: t)))
        []).isEmpty = false := by
      cases hc : build_codes (build_huffman_tree τ (build_frequency_table (e1 :: t))) [] with
      | nil =>
        rw [hc] at hkeysperm
        have := hkeysperm.length_eq
        rw [firstOccs] at this
        simp at this
      | cons p ps => rfl
    unfold decode
    rw [hbne, hcodne]
    simp only [Bool.or_self, Bool.false_eq_true, if_false]
    rw [hdec]

/-- C1: Huffman round-trip — for every text over any alphabet (including the
empty text and repeated-symbol texts), decoding the encoded bitstring with
the returned table recovers the text, whatever heap id assignment the run
used (and in particular for `encode` itself). -/
theorem C1_huffman_roundtrip (σ : Nat → Nat) (text : List Char) :
    decode (encodeWith σ text).1 (encodeWith σ text).2 = text ∧
    decode (encode text).1 (encode text).2 = text :=
  ⟨decode_encodeWith σ text, decode_encodeWith (fun i => i) text⟩

/- #### C7: tie-breaking by id and (non-)determinism -/

/-- Relabelling heap ids by a strictly monotone map commutes with popping the
minimum: only the relative order of ids matters to the heap. -/
theorem popMin_map_relabel (σ : Nat → Nat) (hσ : StrictMono σ) :
    ∀ (l : List (Nat × Nat × Htree)),
      popMin (l.map (fun e => (e.1, σ e.2.1, e.2.2))) =
        (popMin l).map (fun pr => ((pr.1.1, σ pr.1.2.1, pr.1.2.2),
          pr.2.map (fun e => (e.1, σ e.2.1, e.2.2)))) := by
  intro l
  induction l with
  | nil => rfl
  | cons x xs ih =>
    simp only [List.map_cons, popMin, ih]
    cases hx : popMin xs with
    | none => rfl
    | some pr =>
      rcases pr with ⟨m, rest⟩
      simp only [Option.map_some']
      have hiff : heapKeyLe (x.1, σ x.2.1, x.2.2) (m.1, σ m.2.1, m.2.2) ↔ heapKeyLe x m := by
        unfold heapKeyLe
        constructor
        · rintro (h | ⟨h1, h2⟩)
          · exact Or.inl h
          · exact Or.inr ⟨h1, hσ.le_iff_le.1 h2⟩
        · rintro (h | ⟨h1, h2⟩)
          · exact Or.inl h
          · exact Or.inr ⟨h1, hσ.le_iff_le.2 h2⟩
      by_cases hle : heapKeyLe x m
      · rw [if_pos hle, if_pos (hiff.2 hle)]
        rfl
      · rw [if_neg hle, if_neg (fun hc => hle (hiff.1 hc))]
        rfl

/-- The merge loop depends on the ids only through their relative order: a
strictly monotone relabelling leaves the resulting tree unchanged. -/
theorem mergeLoop_relabel (σ : Nat → Nat) (hσ : StrictMono σ) :
    ∀ (fuel : Nat) (heap : List (Nat × Nat × Htree)) (ctr : Nat),
      mergeLoop σ fuel (heap.map (fun e => (e.1, σ e.2.1, e.2.2))) ctr =
        mergeLoop (fun i => i) fuel heap ctr := by
  intro fuel
  induction fuel with
  | zero =>
    intro heap ctr
    cases heap with
    | nil => rfl
    | cons h t => rfl
  | succ f ih =>
    intro heap ctr
    cases hpop : popMin heap with
    | none =>
      have : heap = [] := (popMin_eq_none_iff heap).1 hpop
      subst this
      rfl
    | some pr =>
      rcases pr with ⟨x, rest⟩
      have hm := popMin_map_relabel σ hσ heap
      rw [hpop] at hm
      simp only [Option.map_some'] at hm
      cases heap with
      | nil => cases hpop
      | cons h t =>
        cases hpop2 : popMin rest with
        | none =>
          have hrest : rest = [] := (popMin_eq_none_iff rest).1 hpop2
          subst hrest
          have hL : mergeLoop σ (f + 1)
              ((h :: t).map (fun e => (e.1, σ e.2.1, e.2.2))) ctr = x.2.2 := by
            have hpn : popMin ([] : List (Nat × Nat × Htree)) = none := rfl
            simp only [List.map_cons] at hm ⊢
            simp only [mergeLoop, hm, List.map_nil, hpn]
          have hR : mergeLoop (fun i => i) (f + 1) (h :: t) ctr = x.2.2 := by
            simp only [mergeLoop, hpop, hpop2]
          rw [hL, hR]
        | some pr2 =>
          rcases pr2 with ⟨y, rest2⟩
          have hm2 := popMin_map_relabel σ hσ rest
          rw [hpop2] at hm2
          simp only [Option.map_some'] at hm2
          have hL : mergeLoop σ (f + 1)
              ((h :: t).map (fun e => (e.1, σ e.2.1, e.2.2))) ctr =
              mergeLoop σ f
                (((x.2.2.hfreq + y.2.2.hfreq, ctr,
                   Htree.node (x.2.2.hfreq + y.2.2.hfreq) x.2.2 y.2.2) :: rest2).map
                  (fun e => (e.1, σ e.2.1, e.2.2))) (ctr + 1) := by
            simp only [List.map_cons] at hm ⊢
            simp only [mergeLoop, hm, hm2]
          have hR : mergeLoop (fun i => i) (f + 1) (h :: t) ctr =
              mergeLoop (fun i => i) f
                ((x.2.2.hfreq + y.2.2.hfreq, ctr,
                  Htree.node (x.2.2.hfreq + y.2.2.hfreq) x.2.2 y.2.2) :: rest2) (ctr + 1) := by
            simp only [mergeLoop, hpop, hpop2]
          rw [hL, hR, ih]

/-- The whole encoder is invariant under strictly monotone id relabelling. -/
theorem encodeWith_strictMono (σ : Nat → Nat) (hσ : StrictMono σ) (text : List Char) :
    encodeWith σ text = encodeWith (fun i => i) text := by
  have htree : ∀ freq : List (Char × Nat),
      build_huffman_tree σ freq = build_huffman_tree (fun i => i) freq := by
    intro freq
    cases freq with
    | nil => rfl
    | cons p t =>
      cases t with
      | nil =>
        rcases p with ⟨c, n⟩
        rfl
      | cons q t2 =>
        have hmap : ((p :: q :: t2).enum.map
            (fun pr => (pr.2.2, σ pr.1, Htree.leaf pr.2.1 pr.2.2))) =
            ((p :: q :: t2).enum.map
              (fun pr => (pr.2.2, pr.1, Htree.leaf pr.2.1 pr.2.2))).map
              (fun e => (e.1, σ e.2.1, e.2.2)) := by
          rw [List.map_map]
          rfl
        have hstepσ : build_huffman_tree σ (p :: q :: t2) =
            mergeLoop σ ((p :: q :: t2).enum.map
                (fun pr => (pr.2.2, σ pr.1, Htree.leaf pr.2.1 pr.2.2))).length
              ((p :: q :: t2).enum.map
                (fun pr => (pr.2.2, σ pr.1, Htree.leaf pr.2.1 pr.2.2)))
              (p :: q :: t2).length := by
          rcases p with ⟨c1, n1⟩
          rcases q with ⟨c2, n2⟩
          rfl
        have hstepid : build_huffman_tree (fun i => i) (p :: q :: t2) =
            mergeLoop (fun i => i) ((p :: q :: t2).enum.map
                (fun pr => (pr.2.2, pr.1, Htree.leaf pr.2.1 pr.2.2))).length
              ((p :: q :: t2).enum.map
                (fun pr => (pr.2.2, pr.1, Htree.leaf pr.2.1 pr.2.2)))
              (p :: q :: t2).length := by
          rcases p with ⟨c1, n1⟩
          rcases q with ⟨c2, n2⟩
          rfl
        rw [hstepσ, hstepid, hmap, List.length_map]
        exact mergeLoop_relabel σ hσ _ _ _
  simp only [encodeWith, htree]

/-- C7 counterexample: the heap tiebreak is the `id()` of a freshly allocated
dict, not the insertion sequence; two runs whose (injective) id assignments
order the two equal-frequency leaves of `"ab"` differently produce different
code tables and bitstrings, refuting the claimed run-independence of
`encode`. -/
theorem C7_tiebreak_counterexample :
    Function.Injective (fun i : Nat => i) ∧
    Function.Injective (fun i : Nat => if i = 0 then 1 else if i = 1 then 0 else i) ∧
    encodeWith (fun i => i) ['a', 'b'] = (['0', '1'], [('a', ['0']), ('b', ['1'])]) ∧
    encodeWith (fun i => if i = 0 then 1 else if i = 1 then 0 else i) ['a', 'b'] =
      (['1', '0'], [('b', ['0']), ('a', ['1'])]) ∧
    ¬ (∀ (text : List Char) (σ1 σ2 : Nat → Nat), Function.Injective σ1 →
        Function.Injective σ2 → encodeWith σ1 text = encodeWith σ2 text) := by
  have hinj1 : Function.Injective (fun i : Nat => i) := fun a b h => h
  have hinj2 : Function.Injective
      (fun i : Nat => if i = 0 then 1 else if i = 1 then 0 else i) := by
    intro a b h
    simp only at h
    split_ifs at h <;> omega
  refine ⟨hinj1, hinj2, by decide, by decide, ?_⟩
  intro hall
  have := hall ['a', 'b'] (fun i => i)
    (fun i => if i = 0 then 1 else if i = 1 then 0 else i) hinj1 hinj2
  rw [show encodeWith (fun i : Nat => i) ['a', 'b'] =
      (['0', '1'], [('a', ['0']), ('b', ['1'])]) from by decide] at this
  rw [show encodeWith (fun i : Nat => if i = 0 then 1 else if i = 1 then 0 else i)
      ['a', 'b'] = (['1', '0'], [('b', ['0']), ('a', ['1'])]) from by decide] at this
  cases this

/-- C7 amended: the tiebreak is by the numeric id value, so `encode` is
deterministic exactly up to the relative order of the heap-node ids — any two
runs whose id assignments are ordered consistently with allocation order
(strictly monotone) produce identical code tables and bitstrings. -/
theorem C7_tiebreak_amended (text : List Char) (σ1 σ2 : Nat → Nat)
    (h1 : StrictMono σ1) (h2 : StrictMono σ2) :
    encodeWith σ1 text = encodeWith σ2 text := by
  rw [encodeWith_strictMono σ1 h1, encodeWith_strictMono σ2 h2]

/-- C7 amended witness: two monotone id assignments agree on `"ab"`. -/
theorem C7_tiebreak_amended_witness :
    encodeWith (fun i => i) ['a', 'b'] = encodeWith (fun i => i + 5) ['a', 'b'] :=
  C7_tiebreak_amended ['a', 'b'] (fun i => i) (fun i => i + 5)
    (fun _ _ h => h) (fun _ _ h => Nat.add_lt_add_right h 5)

/- #### C3: Kruskal produces a spanning forest — union-find groundwork -/

/-- A root path ends at a root. -/
theorem rootPathN_last_isRoot {p : List Nat} :
    ∀ {x s k : Nat}, RootPathN p x s k → p.getD s s = s := by
  intro x s k h
  induction h with
  | root _ hr => exact hr
  | step _ _ _ _ _ ih => exact ih

/-- A root path from a root stays put. -/
theorem rootPathN_of_root {p : List Nat} {x s k : Nat} (hroot : p.getD x x = x)
    (h : RootPathN p x s k) : s = x ∧ k = 0 := by
  cases h with
  | root _ _ => exact ⟨rfl, rfl⟩
  | step _ _ _ hne _ => exact absurd hroot hne

/-- Root paths are deterministic. -/
theorem rootPathN_unique {p : List Nat} :
    ∀ {x s1 k1 s2 k2 : Nat}, RootPathN p x s1 k1 → RootPathN p x s2 k2 → s1 = s2 := by
  intro x s1 k1 s2 k2 h1
  induction h1 generalizing s2 k2 with
  | root x hr =>
    intro h2
    exact ((rootPathN_of_root hr h2).1).symm
  | step x s k hne hrec ih =>
    intro h2
    cases h2 with
    | root _ hr => exact absurd hr hne
    | step _ _ _ _ hrec2 => exact ih hrec2

/-- Root paths stay inside the range of the parent list. -/
theorem rootPathN_lt {p r : List Nat} (hwf : UFWf p r) :
    ∀ {x s k : Nat}, RootPathN p x s k → x < p.length → s < p.length := by
  intro x s k h
  induction h with
  | root _ _ => exact fun hx => hx
  | step y t k hne hrec ih =>
    intro hy
    exact ih (hwf.pmem y hy)

/-- Ranks strictly increase along a non-trivial root path. -/
theorem rootPathN_rank_lt {p r : List Nat} (hwf : UFWf p r) :
    ∀ {x s k : Nat}, RootPathN p x s k → x < p.length → x ≠ s →
      r.getD x 0 < r.getD s 0 := by
  intro x s k h
  induction h with
  | root y hr => intro _ hne; exact absurd rfl hne
  | step y t k hne hrec ih =>
    intro hy _
    have hstep := hwf.prank y hy hne
    by_cases hps : p.getD y y = t
    · rw [hps] at hstep
      exact hstep
    · exact hstep.trans (ih (hwf.pmem y hy) hps)

/-- Every in-range node has a root path, of length at most its measure. -/
theorem rootPath_exists {p r : List Nat} (hwf : UFWf p r) :
    ∀ (m x : Nat), x < p.length → ufMeasure r p.length x ≤ m →
      ∃ s k, RootPathN p x s k ∧ k ≤ ufMeasure r p.length x := by
  intro m
  induction m with
  | zero =>
    intro x hx hm
    by_cases hroot : p.getD x x = x
    · exact ⟨x, 0, RootPathN.root x hroot, Nat.zero_le _⟩
    · exfalso
      have hlt := hwf.prank x hx hroot
      have hmem : p.getD x x ∈ (Finset.range p.length).filter
          (fun y => r.getD x 0 < r.getD y 0) := by
        rw [Finset.mem_filter]
        exact ⟨Finset.mem_range.2 (hwf.pmem x hx), by simpa using hlt⟩
      have : 0 < ufMeasure r p.length x := Finset.card_pos.2 ⟨_, hmem⟩
      omega
  | succ m ih =>
    intro x hx hm
    by_cases hroot : p.getD x x = x
    · exact ⟨x, 0, RootPathN.root x hroot, Nat.zero_le _⟩
    · have hpx := hwf.pmem x hx
      have hlt := hwf.prank x hx hroot
      have hsub : (Finset.range p.length).filter
          (fun y => r.getD (p.getD x x) 0 < r.getD y 0) ⊂
          (Finset.range p.length).filter (fun y => r.getD x 0 < r.getD y 0) := by
        rw [Finset.ssubset_iff_of_subset]
        · refine ⟨p.getD x x, ?_, ?_⟩
          · rw [Finset.mem_filter]
            exact ⟨Finset.mem_range.2 hpx, by simpa using hlt⟩
          · rw [Finset.mem_filter]
            simp
        · intro y hy
          rw [Finset.mem_filter] at hy ⊢
          refine ⟨hy.1, ?_⟩
          have := hy.2
          simp only [decide_eq_true_eq] at this ⊢
          omega
      have hcard := Finset.card_lt_card hsub
      have hm2 : ufMeasure r p.length (p.getD x x) ≤ m := by
        unfold ufMeasure at hm ⊢
        omega
      rcases ih (p.getD x x) hpx hm2 with ⟨s, k, hpath, hk⟩
      refine ⟨s, k + 1, RootPathN.step x s k hroot hpath, ?_⟩
      unfold ufMeasure at hm hk ⊢
      omega

/-- The measure is at most `n - 1` for an in-range node, so fuel `n` always
suffices for `find`. -/
theorem ufMeasure_lt (r : List Nat) (n x : Nat) (hx : x < n) :
    ufMeasure r n x < n := by
  unfold ufMeasure
  have hsub : (Finset.range n).filter (fun y => r.getD x 0 < r.getD y 0) ⊂
      Finset.range n := by
    rw [Finset.ssubset_iff_of_subset (Finset.filter_subset _ _)]
    refine ⟨x, Finset.mem_range.2 hx, ?_⟩
    rw [Finset.mem_filter]
    rintro ⟨-, habs⟩
    simp at habs
  have := Finset.card_lt_card hsub
  simpa using this

/-- `getD` after `set` at the written index. -/
theorem getD_set_eq : ∀ (l : List Nat) (x v d : Nat), x < l.length →
    (l.set x v).getD x d = v := by
  intro l
  induction l with
  | nil => intro x v d h; cases h
  | cons a t ih =>
    intro x v d h
    cases x with
    | zero => rfl
    | succ x2 =>
      simp only [List.set_cons_succ, List.getD_cons_succ]
      exact ih x2 v d (by simpa using h)

/-- `getD` after `set` at another index. -/
theorem getD_set_ne : ∀ (l : List Nat) (x v d y : Nat), y ≠ x →
    (l.set x v).getD y d = l.getD y d := by
  intro l
  induction l with
  | nil => intro x v d y _; rfl
  | cons a t ih =>
    intro x v d y hne
    cases x with
    | zero =>
      cases y with
      | zero => exact absurd rfl hne
      | succ y2 => rfl
    | succ x2 =>
      cases y with
      | zero => rfl
      | succ y2 =>
        simp only [List.set_cons_succ, List.getD_cons_succ]
        exact ih x2 v d y2 (fun h => hne (by rw [h]))

/-- Path compression (re-pointing a non-root node at its own root) does not
change any node's root. -/
theorem rootPath_set_compress {p : List Nat} {x root : Nat}
    (hroot : RootPath p x root) (hxnr : p.getD x x ≠ x) (hx : x < p.length) :
    ∀ (y s : Nat), RootPath p y s ↔ RootPath (p.set x root) y s := by
  have hrootroot : p.getD root root = root := by
    rcases hroot with ⟨k, hk⟩
    exact rootPathN_last_isRoot hk
  have hrx : root ≠ x := by
    intro h
    rw [h] at hrootroot
    exact hxnr hrootroot
  intro y s
  constructor
  · rintro ⟨k, hk⟩
    induction hk with
    | root z hz =>
      have hzx : z ≠ x := by
        intro h
        rw [h] at hz
        exact hxnr hz
      exact ⟨0, RootPathN.root z (by rw [getD_set_ne p x root z z hzx]; exact hz)⟩
    | step z t k2 hne hrec ih =>
      by_cases hzx : z = x
      · subst hzx
        have huniq : t = root := by
          rcases hroot with ⟨k0, hk0⟩
          exact rootPathN_unique (RootPathN.step z t k2 hne hrec) hk0
        subst huniq
        refine ⟨1, RootPathN.step z t 0 ?_ ?_⟩
        · rw [getD_set_eq p z t z hx]
          exact fun h => hrx h
        · rw [getD_set_eq p z t z hx]
          exact RootPathN.root t (by rw [getD_set_ne p z t t t hrx]; exact hrootroot)
      · rcases ih with ⟨k3, hk3⟩
        refine ⟨k3 + 1, RootPathN.step z t k3 ?_ ?_⟩
        · rw [getD_set_ne p x root z z hzx]
          exact hne
        · rw [getD_set_ne p x root z z hzx]
          exact hk3
  · rintro ⟨k, hk⟩
    induction hk with
    | root z hz =>
      have hzx : z ≠ x := by
        intro h
        subst h
        rw [getD_set_eq p z root z hx] at hz
        exact hrx hz
      rw [getD_set_ne p x root z z hzx] at hz
      exact ⟨0, RootPathN.root z hz⟩
    | step z t k2 hne hrec ih =>
      by_cases hzx : z = x
      · subst hzx
        have hpz : (p.set z root).getD z z = root := getD_set_eq p z root z hx
        rw [hpz] at hrec
        have : t = root := by
          rcases rootPathN_of_root (x := root)
            (by rw [getD_set_ne p z root root root hrx]; exact hrootroot) hrec with ⟨h1, -⟩
          exact h1
        subst this
        exact hroot
      · rw [getD_set_ne p x root z z hzx] at hne
        rcases ih with ⟨k3, hk3⟩
        rw [getD_set_ne p x root z z hzx] at hk3
        exact ⟨k3 + 1, RootPathN.step z t k3 hne hk3⟩

/-- Path compression does not change which nodes are roots. -/
theorem isRoot_set_compress {p : List Nat} {x root : Nat}
    (hroot : RootPath p x root) (hxnr : p.getD x x ≠ x) (hx : x < p.length) :
    ∀ i, ((p.set x root).getD i i = i) ↔ (p.getD i i = i) := by
  have hrootroot : p.getD root root = root := by
    rcases hroot with ⟨k, hk⟩
    exact rootPathN_last_isRoot hk
  have hrx : root ≠ x := by
    intro h
    rw [h] at hrootroot
    exact hxnr hrootroot
  intro i
  by_cases hix : i = x
  · subst hix
    rw [getD_set_eq p i root i hx]
    constructor
    · intro h
      exact absurd h hrx
    · intro h
      exact absurd h hxnr
  · rw [getD_set_ne p x root i i hix]

/-- Path compression preserves well-formedness. -/
theorem ufWf_set_compress {p r : List Nat} (hwf : UFWf p r) {x root : Nat}
    (hroot : RootPath p x root) (hxnr : p.getD x x ≠ x) (hx : x < p.length) :
    UFWf (p.set x root) r := by
  have hrootlt : root < p.length := by
    rcases hroot with ⟨k, hk⟩
    exact rootPathN_lt hwf hk hx
  have hrx : root ≠ x := by
    have hrr : p.getD root root = root := by
      rcases hroot with ⟨k, hk⟩
      exact rootPathN_last_isRoot hk
    intro h
    rw [h] at hrr
    exact hxnr hrr
  refine ⟨?_, ?_, ?_⟩
  · rw [List.length_set]
    exact hwf.rlen
  · intro i hi
    rw [List.length_set] at hi ⊢
    by_cases hix : i = x
    · subst hix
      rw [getD_set_eq p i root i hx]
      exact hrootlt
    · rw [getD_set_ne p x root i i hix]
      exact hwf.pmem i hi
  · intro i hi hner
    rw [List.length_set] at hi
    by_cases hix : i = x
    · subst hix
      rw [getD_set_eq p i root i hx] at hner ⊢
      rcases hroot with ⟨k, hk⟩
      exact rootPathN_rank_lt hwf hk hx (fun h => hner h.symm)
    · rw [getD_set_ne p x root i i hix] at hner ⊢
      exact hwf.prank i hi hner

/-- `ufFind` equation at a root. -/
theorem ufFind_succ {p : List Nat} (x f : Nat) :
    ufFind (f + 1) p x =
      if p.getD x x = x then (p, x)
      else ((ufFind f p (p.getD x x)).1.set x (ufFind f p (p.getD x x)).2,
            (ufFind f p (p.getD x x)).2) := rfl

/-- `ufFind` equation at a root. -/
theorem ufFind_succ_root {p : List Nat} {x f : Nat} (h : p.getD x x = x) :
    ufFind (f + 1) p x = (p, x) := by
  rw [ufFind_succ, if_pos h]

/-- `ufFind` equation at a non-root. -/
theorem ufFind_succ_step {p : List Nat} {x f : Nat} (h : p.getD x x ≠ x) :
    ufFind (f + 1) p x =
      ((ufFind f p (p.getD x x)).1.set x (ufFind f p (p.getD x x)).2,
       (ufFind f p (p.getD x x)).2) := by
  rw [ufFind_succ, if_neg h]

/-- Specification of `find` with path compression: with enough fuel it
returns the root, keeps the state well-formed, and changes neither any node's
root nor the root set. -/
theorem ufFind_spec {r : List Nat} :
    ∀ (k : Nat) (p : List Nat) (x s fuel : Nat), UFWf p r → RootPathN p x s k →
      x < p.length → k < fuel →
      (ufFind fuel p x).2 = s ∧
      (ufFind fuel p x).1.length = p.length ∧
      UFWf (ufFind fuel p x).1 r ∧
      (∀ y t, RootPath p y t ↔ RootPath (ufFind fuel p x).1 y t) ∧
      (∀ i, ((ufFind fuel p x).1.getD i i = i) ↔ (p.getD i i = i)) := by
  intro k
  induction k with
  | zero =>
    intro p x s fuel hwf hpath hx hfuel
    rcases fuel with _ | f
    · omega
    · cases hpath with
      | root _ hr =>
        rw [ufFind_succ_root hr]
        exact ⟨rfl, rfl, hwf, fun y t => Iff.rfl, fun i => Iff.rfl⟩
  | succ k2 ih =>
    intro p x s fuel hwf hpath hx hfuel
    rcases fuel with _ | f
    · omega
    · cases hpath with
      | step _ _ _ hne hrec =>
        have hpx : p.getD x x < p.length := hwf.pmem x hx
        rcases ih p (p.getD x x) s f hwf hrec hpx (by omega) with
          ⟨hres, hlen, hwf1, hiff, hroots⟩
        rw [ufFind_succ_step hne]
        rw [hres]
        have hp1root : RootPath (ufFind f p (p.getD x x)).1 x s :=
          (hiff x s).1 ⟨k2 + 1, RootPathN.step x s k2 hne hrec⟩
        have hp1nr : (ufFind f p (p.getD x x)).1.getD x x ≠ x := by
          intro h
          exact hne ((hroots x).1 h)
        have hx1 : x < (ufFind f p (p.getD x x)).1.length := by
          rw [hlen]
          exact hx
        refine ⟨rfl, ?_, ?_, ?_, ?_⟩
        · rw [List.length_set]
          exact hlen
        · exact ufWf_set_compress hwf1 hp1root hp1nr hx1
        · intro y t
          exact (hiff y t).trans (rootPath_set_compress hp1root hp1nr hx1 y t)
        · intro i
          exact ((isRoot_set_compress hp1root hp1nr hx1 i)).trans (hroots i)

/-- Root paths are deterministic (packaged form). -/
theorem rootPath_unique {p : List Nat} {x a b : Nat}
    (h1 : RootPath p x a) (h2 : RootPath p x b) : a = b := by
  rcases h1 with ⟨k1, hk1⟩
  rcases h2 with ⟨k2, hk2⟩
  exact rootPathN_unique hk1 hk2

/-- After linking root `l` beneath root `w`, paths with a root other than `l`
survive unchanged. -/
theorem rootPathN_keep_set_union {p : List Nat} {l w : Nat}
    (hl : p.getD l l = l) :
    ∀ (z s k : Nat), RootPathN p z s k → s ≠ l → RootPath (p.set l w) z s := by
  intro z s k hk
  induction hk with
  | root z2 hz =>
    intro hsl
    exact ⟨0, RootPathN.root z2 (by rw [getD_set_ne p l w z2 z2 hsl]; exact hz)⟩
  | step z2 t k2 hne hrec ih =>
    intro hsl
    have hzl : z2 ≠ l := by
      intro h
      subst h
      exact hne hl
    rcases ih hsl with ⟨k3, hk3⟩
    refine ⟨k3 + 1, RootPathN.step z2 t k3 ?_ ?_⟩
    · rw [getD_set_ne p l w z2 z2 hzl]
      exact hne
    · rw [getD_set_ne p l w z2 z2 hzl]
      exact hk3

/-- After linking root `l` beneath root `w`, nodes that used to reach `l`
now reach `w`. -/
theorem rootPath_loser_set_union {p : List Nat} {l w : Nat}
    (hl : p.getD l l = l) (hw : p.getD w w = w) (hwl : w ≠ l)
    (hllen : l < p.length) :
    ∀ (z s k : Nat), RootPathN p z s k → s = l → RootPath (p.set l w) z w := by
  intro z s k hk
  induction hk with
  | root z2 hz =>
    intro hsl
    subst hsl
    refine ⟨1, RootPathN.step z2 w 0 ?_ ?_⟩
    · rw [getD_set_eq p z2 w z2 hllen]
      exact hwl
    · rw [getD_set_eq p z2 w z2 hllen]
      exact RootPathN.root w (by rw [getD_set_ne p z2 w w w hwl]; exact hw)
  | step z2 t k2 hne hrec ih =>
    intro hsl
    have hzl : z2 ≠ l := by
      intro h
      subst h
      exact hne hl
    rcases ih hsl with ⟨k3, hk3⟩
    refine ⟨k3 + 1, RootPathN.step z2 w k3 ?_ ?_⟩
    · rw [getD_set_ne p l w z2 z2 hzl]
      exact hne
    · rw [getD_set_ne p l w z2 z2 hzl]
      exact hk3

/-- Characterisation of root paths after linking root `l` beneath root `w`:
either the old root survives (it was not `l`), or the node used to reach `l`
and now reaches `w`. -/
theorem rootPath_set_union {p : List Nat} {l w : Nat}
    (hl : p.getD l l = l) (hw : p.getD w w = w) (hwl : w ≠ l)
    (hllen : l < p.length) :
    ∀ (z s : Nat), RootPath (p.set l w) z s ↔
      ((RootPath p z s ∧ s ≠ l) ∨ (RootPath p z l ∧ s = w)) := by
  have hwroot2 : (p.set l w).getD w w = w := by
    rw [getD_set_ne p l w w w hwl]
    exact hw
  intro z s
  constructor
  · rintro ⟨k, hk⟩
    induction hk with
    | root z2 hz =>
      by_cases hzl : z2 = l
      · subst hzl
        rw [getD_set_eq p z2 w z2 hllen] at hz
        exact absurd hz hwl
      · rw [getD_set_ne p l w z2 z2 hzl] at hz
        exact Or.inl ⟨⟨0, RootPathN.root z2 hz⟩, hzl⟩
    | step z2 t k2 hne hrec ih =>
      by_cases hzl : z2 = l
      · subst hzl
        rw [getD_set_eq p z2 w z2 hllen] at hrec
        rcases rootPathN_of_root hwroot2 hrec with ⟨ht, -⟩
        exact Or.inr ⟨⟨0, RootPathN.root z2 hl⟩, ht⟩
      · rw [getD_set_ne p l w z2 z2 hzl] at hne hrec ih
        rcases ih with ⟨⟨k3, hk3⟩, htl⟩ | ⟨⟨k3, hk3⟩, htw⟩
        · exact Or.inl ⟨⟨k3 + 1, RootPathN.step z2 t k3 hne hk3⟩, htl⟩
        · exact Or.inr ⟨⟨k3 + 1, RootPathN.step z2 l k3 hne hk3⟩, htw⟩
  · rintro (⟨⟨k, hk⟩, hsl⟩ | ⟨⟨k, hk⟩, hsw⟩)
    · exact rootPathN_keep_set_union hl z s k hk hsl
    · subst hsw
      exact rootPath_loser_set_union hl hw hwl hllen z l k hk rfl

/-- After linking root `l` beneath root `w`, the roots are the old roots
minus `l`. -/
theorem isRoot_set_union {p : List Nat} {l w : Nat} (hwl : w ≠ l)
    (hllen : l < p.length) :
    ∀ i, ((p.set l w).getD i i = i) ↔ (p.getD i i = i ∧ i ≠ l) := by
  intro i
  by_cases hil : i = l
  · subst hil
    rw [getD_set_eq p i w i hllen]
    constructor
    · intro h
      exact absurd h hwl
    · rintro ⟨-, h⟩
      exact absurd rfl h
  · rw [getD_set_ne p l w i i hil]
    exact ⟨fun h => ⟨h, hil⟩, fun h => h.1⟩

/-- A pointwise root-path correspondence transfers `sameRoot`. -/
theorem sameRoot_congr {p q : List Nat}
    (h : ∀ y t, RootPath p y t ↔ RootPath q y t) :
    ∀ a b, sameRoot p a b ↔ sameRoot q a b := by
  intro a b
  constructor
  · rintro ⟨r, h1, h2⟩
    exact ⟨r, (h a r).1 h1, (h b r).1 h2⟩
  · rintro ⟨r, h1, h2⟩
    exact ⟨r, (h a r).2 h1, (h b r).2 h2⟩

/-- Being in the class of a node with known root is reaching that root. -/
theorem sameRoot_iff_rootPath {p : List Nat} {x r : Nat} (hx : RootPath p x r) :
    ∀ a, sameRoot p a x ↔ RootPath p a r := by
  intro a
  constructor
  · rintro ⟨s, has, hxs⟩
    have hsr : s = r := rootPath_unique hxs hx
    subst hsr
    exact has
  · intro h
    exact ⟨r, h, hx⟩

/-- `sameRoot` after linking root `l` beneath root `w`: the two classes merge
and all other classes are untouched. -/
theorem sameRoot_set_union {p : List Nat} {l w : Nat}
    (hl : p.getD l l = l) (hw : p.getD w w = w) (hwl : w ≠ l)
    (hllen : l < p.length) :
    ∀ a b, sameRoot (p.set l w) a b ↔
      (sameRoot p a b ∨ (RootPath p a l ∧ RootPath p b w) ∨
       (RootPath p a w ∧ RootPath p b l)) := by
  intro a b
  constructor
  · rintro ⟨r, hra, hrb⟩
    rw [rootPath_set_union hl hw hwl hllen] at hra hrb
    rcases hra with ⟨ha, hrl⟩ | ⟨ha, hrw⟩
    · rcases hrb with ⟨hb, -⟩ | ⟨hb, hrw⟩
      · exact Or.inl ⟨r, ha, hb⟩
      · subst hrw
        exact Or.inr (Or.inr ⟨ha, hb⟩)
    · subst hrw
      rcases hrb with ⟨hb, -⟩ | ⟨hb, -⟩
      · exact Or.inr (Or.inl ⟨ha, hb⟩)
      · exact Or.inl ⟨l, ha, hb⟩
  · rintro (⟨r, hra, hrb⟩ | ⟨hal, hbw⟩ | ⟨haw, hbl⟩)
    · by_cases hrl : r = l
      · subst hrl
        refine ⟨w, ?_, ?_⟩
        · rw [rootPath_set_union hl hw hwl hllen]
          exact Or.inr ⟨hra, rfl⟩
        · rw [rootPath_set_union hl hw hwl hllen]
          exact Or.inr ⟨hrb, rfl⟩
      · refine ⟨r, ?_, ?_⟩
        · rw [rootPath_set_union hl hw hwl hllen]
          exact Or.inl ⟨hra, hrl⟩
        · rw [rootPath_set_union hl hw hwl hllen]
          exact Or.inl ⟨hrb, hrl⟩
    · refine ⟨w, ?_, ?_⟩
      · rw [rootPath_set_union hl hw hwl hllen]
        exact Or.inr ⟨hal, rfl⟩
      · rw [rootPath_set_union hl hw hwl hllen]
        exact Or.inl ⟨hbw, hwl⟩
    · refine ⟨w, ?_, ?_⟩
      · rw [rootPath_set_union hl hw hwl hllen]
        exact Or.inl ⟨haw, hwl⟩
      · rw [rootPath_set_union hl hw hwl hllen]
        exact Or.inr ⟨hbl, rfl⟩

/-- Linking root `l` beneath root `w` preserves well-formedness, provided the
new rank list is unchanged at non-roots, pointwise at least the old one, and
puts `l` strictly below `w`. -/
theorem ufWf_set_union {p rk rk2 : List Nat} (hwf : UFWf p rk)
    {l w : Nat} (hl : p.getD l l = l) (hwl : w ≠ l)
    (hwlen : w < p.length) (hllen : l < p.length)
    (hrlen : rk2.length = rk.length)
    (hmono : ∀ i, rk.getD i 0 ≤ rk2.getD i 0)
    (hkeep : ∀ i, i < p.length → p.getD i i ≠ i → rk2.getD i 0 = rk.getD i 0)
    (hlw : rk2.getD l 0 < rk2.getD w 0) :
    UFWf (p.set l w) rk2 := by
  refine ⟨?_, ?_, ?_⟩
  · rw [List.length_set, hrlen, hwf.rlen]
  · intro i hi
    rw [List.length_set] at hi ⊢
    by_cases hil : i = l
    · subst hil
      rw [getD_set_eq p i w i hllen]
      exact hwlen
    · rw [getD_set_ne p l w i i hil]
      exact hwf.pmem i hi
  · intro i hi hine
    rw [List.length_set] at hi
    by_cases hil : i = l
    · subst hil
      rw [getD_set_eq p i w i hllen] at hine ⊢
      exact hlw
    · rw [getD_set_ne p l w i i hil] at hine ⊢
      have h1 := hwf.prank i hi hine
      have h2 := hkeep i hi hine
      have h3 := hmono (p.getD i i)
      omega

/-- The class and root-set description of the linking step, phrased against
the pre-`find` state through a root-path correspondence. -/
theorem ufUnion_true_char {p P2 : List Nat} {x y rx ry l w : Nat}
    (hiff : ∀ u t, RootPath p u t ↔ RootPath P2 u t)
    (hroots : ∀ i, (P2.getD i i = i) ↔ (p.getD i i = i))
    (hlen : P2.length = p.length)
    (hxr : RootPath p x rx) (hyr : RootPath p y ry)
    (hlw : (l = rx ∧ w = ry) ∨ (l = ry ∧ w = rx))
    (hl : p.getD l l = l) (hw : p.getD w w = w) (hwl : w ≠ l)
    (hllen : l < p.length) :
    (∀ a b, sameRoot (P2.set l w) a b ↔
      (sameRoot p a b ∨ (sameRoot p a x ∧ sameRoot p b y) ∨
       (sameRoot p a y ∧ sameRoot p b x))) ∧
    (∃ l0, p.getD l0 l0 = l0 ∧ l0 < p.length ∧
      ∀ i, ((P2.set l w).getD i i = i) ↔ (p.getD i i = i ∧ i ≠ l0)) := by
  have hl2 : P2.getD l l = l := (hroots l).2 hl
  have hw2 : P2.getD w w = w := (hroots w).2 hw
  have hllen2 : l < P2.length := by
    rw [hlen]
    exact hllen
  constructor
  · intro a b
    have hchar := sameRoot_set_union hl2 hw2 hwl hllen2 a b
    have e0 : sameRoot P2 a b ↔ sameRoot p a b := (sameRoot_congr hiff a b).symm
    have eax : sameRoot p a x ↔ RootPath P2 a rx :=
      (sameRoot_iff_rootPath hxr a).trans (hiff a rx)
    have ebx : sameRoot p b x ↔ RootPath P2 b rx :=
      (sameRoot_iff_rootPath hxr b).trans (hiff b rx)
    have eay : sameRoot p a y ↔ RootPath P2 a ry :=
      (sameRoot_iff_rootPath hyr a).trans (hiff a ry)
    have eby : sameRoot p b y ↔ RootPath P2 b ry :=
      (sameRoot_iff_rootPath hyr b).trans (hiff b ry)
    rcases hlw with ⟨hll, hww⟩ | ⟨hll, hww⟩
    · subst hll
      subst hww
      rw [hchar, e0, eax, eby, eay, ebx]
    · subst hll
      subst hww
      rw [hchar, e0, eax, eby, eay, ebx]
      exact or_congr_right or_comm
  · refine ⟨l, hl, hllen, ?_⟩
    intro i
    rw [isRoot_set_union hwl hllen2 i, hroots i]

/-- Specification of `union` by rank: the returned Boolean tells whether two
classes were merged.  `False` leaves ranks, classes and roots unchanged and
certifies the arguments were already in one class; `True` certifies they were
not, merges exactly their two classes, and removes exactly one root. -/
theorem ufUnion_spec {p rk : List Nat} (hwf : UFWf p rk) (x y : Nat)
    (hx : x < p.length) (hy : y < p.length) :
    (ufUnion p rk x y).1.1.length = p.length ∧
    UFWf (ufUnion p rk x y).1.1 (ufUnion p rk x y).1.2 ∧
    ((ufUnion p rk x y).2 = false →
      (ufUnion p rk x y).1.2 = rk ∧ sameRoot p x y ∧
      (∀ a b, sameRoot (ufUnion p rk x y).1.1 a b ↔ sameRoot p a b) ∧
      (∀ i, ((ufUnion p rk x y).1.1.getD i i = i) ↔ (p.getD i i = i))) ∧
    ((ufUnion p rk x y).2 = true →
      ¬ sameRoot p x y ∧
      (∀ a b, sameRoot (ufUnion p rk x y).1.1 a b ↔
        (sameRoot p a b ∨ (sameRoot p a x ∧ sameRoot p b y) ∨
         (sameRoot p a y ∧ sameRoot p b x))) ∧
      (∃ l, p.getD l l = l ∧ l < p.length ∧
        ∀ i, ((ufUnion p rk x y).1.1.getD i i = i) ↔ (p.getD i i = i ∧ i ≠ l))) := by
  have hxm := ufMeasure_lt rk p.length x hx
  rcases rootPath_exists hwf (ufMeasure rk p.length x) x hx (le_refl _) with
    ⟨rx, kx, hkx, hkxle⟩
  have hkxf : kx < p.length := lt_of_le_of_lt hkxle hxm
  rcases ufFind_spec kx p x rx p.length hwf hkx hx hkxf with
    ⟨hres1, hlen1, hwf1, hiff1, hroots1⟩
  have hylen1 : y < (ufFind p.length p x).1.length := by
    rw [hlen1]
    exact hy
  have hym := ufMeasure_lt rk (ufFind p.length p x).1.length y hylen1
  rcases rootPath_exists hwf1 (ufMeasure rk (ufFind p.length p x).1.length y) y
    hylen1 (le_refl _) with ⟨ry, ky, hky, hkyle⟩
  have hkyf : ky < (ufFind p.length p x).1.length := lt_of_le_of_lt hkyle hym
  rcases ufFind_spec ky (ufFind p.length p x).1 y ry (ufFind p.length p x).1.length
    hwf1 hky hylen1 hkyf with ⟨hres2, hlen2, hwf2, hiff2, hroots2⟩
  have hiff : ∀ u t, RootPath p u t ↔
      RootPath (ufFind (ufFind p.length p x).1.length (ufFind p.length p x).1 y).1 u t :=
    fun u t => (hiff1 u t).trans (hiff2 u t)
  have hroots : ∀ i,
      ((ufFind (ufFind p.length p x).1.length (ufFind p.length p x).1 y).1.getD i i = i) ↔
      (p.getD i i = i) :=
    fun i => (hroots2 i).trans (hroots1 i)
  have hlen : (ufFind (ufFind p.length p x).1.length (ufFind p.length p x).1 y).1.length =
      p.length := hlen2.trans hlen1
  have hxr : RootPath p x rx := ⟨kx, hkx⟩
  have hyr : RootPath p y ry := (hiff1 y ry).2 ⟨ky, hky⟩
  have hrxroot : p.getD rx rx = rx := rootPathN_last_isRoot hkx
  have hryroot : p.getD ry ry = ry := (hroots1 ry).1 (rootPathN_last_isRoot hky)
  have hrxlt : rx < p.length := rootPathN_lt hwf hkx hx
  have hrylt : ry < p.length := by
    have h := rootPathN_lt hwf1 hky hylen1
    rw [hlen1] at h
    exact h
  simp only [ufUnion]
  rw [hres1, hres2]
  by_cases heq : rx = ry
  · rw [if_pos heq]
    refine ⟨hlen, hwf2, ?_, ?_⟩
    · intro _
      refine ⟨rfl, ⟨rx, hxr, by rw [heq]; exact hyr⟩, ?_, ?_⟩
      · exact fun a b => (sameRoot_congr hiff a b).symm
      · exact hroots
    · intro h
      exact Bool.noConfusion h
  · rw [if_neg heq]
    have hryx : ry ≠ rx := fun h => heq h.symm
    by_cases hc : rk.getD rx 0 < rk.getD ry 0
    · simp only [if_pos hc]
      rw [if_neg (show ¬ rk.getD ry 0 = rk.getD rx 0 by omega)]
      refine ⟨?_, ?_, ?_, ?_⟩
      · rw [List.length_set]
        exact hlen
      · exact ufWf_set_union hwf2 ((hroots rx).2 hrxroot) hryx
          (by rw [hlen]; exact hrylt) (by rw [hlen]; exact hrxlt)
          rfl (fun i => le_refl _) (fun i _ _ => rfl) hc
      · intro h
        exact Bool.noConfusion h
      · intro _
        have hmain := ufUnion_true_char hiff hroots hlen hxr hyr
          (Or.inl ⟨rfl, rfl⟩) hrxroot hryroot hryx hrxlt
        refine ⟨?_, hmain.1, hmain.2⟩
        rintro ⟨r, hra, hrb⟩
        exact heq ((rootPath_unique hra hxr).symm.trans (rootPath_unique hrb hyr))
    · simp only [if_neg hc]
      by_cases hrkeq : rk.getD rx 0 = rk.getD ry 0
      · rw [if_pos hrkeq]
        refine ⟨?_, ?_, ?_, ?_⟩
        · rw [List.length_set]
          exact hlen
        · refine ufWf_set_union hwf2 ((hroots ry).2 hryroot) heq
            (by rw [hlen]; exact hrxlt) (by rw [hlen]; exact hrylt)
            (by rw [List.length_set]) ?_ ?_ ?_
          · intro i
            by_cases hirx : i = rx
            · subst hirx
              rw [getD_set_eq rk i (rk.getD i 0 + 1) 0 (by rw [hwf.rlen]; exact hrxlt)]
              omega
            · rw [getD_set_ne rk rx (rk.getD rx 0 + 1) 0 i hirx]
          · intro i hi hine
            have hirx : i ≠ rx := by
              intro h
              subst h
              exact hine ((hroots i).2 hrxroot)
            exact getD_set_ne rk rx (rk.getD rx 0 + 1) 0 i hirx
          · rw [getD_set_ne rk rx (rk.getD rx 0 + 1) 0 ry hryx,
                getD_set_eq rk rx (rk.getD rx 0 + 1) 0 (by rw [hwf.rlen]; exact hrxlt)]
            omega
        · intro h
          exact Bool.noConfusion h
        · intro _
          have hmain := ufUnion_true_char hiff hroots hlen hxr hyr
            (Or.inr ⟨rfl, rfl⟩) hryroot hrxroot heq hrylt
          refine ⟨?_, hmain.1, hmain.2⟩
          rintro ⟨r, hra, hrb⟩
          exact heq ((rootPath_unique hra hxr).symm.trans (rootPath_unique hrb hyr))
      · rw [if_neg hrkeq]
        refine ⟨?_, ?_, ?_, ?_⟩
        · rw [List.length_set]
          exact hlen
        · exact ufWf_set_union hwf2 ((hroots ry).2 hryroot) heq
            (by rw [hlen]; exact hrxlt) (by rw [hlen]; exact hrylt)
            rfl (fun i => le_refl _) (fun i _ _ => rfl) (by omega)
        · intro h
          exact Bool.noConfusion h
        · intro _
          have hmain := ufUnion_true_char hiff hroots hlen hxr hyr
            (Or.inr ⟨rfl, rfl⟩) hryroot hrxroot heq hrylt
          refine ⟨?_, hmain.1, hmain.2⟩
          rintro ⟨r, hra, hrb⟩
          exact heq ((rootPath_unique hra hxr).symm.trans (rootPath_unique hrb hyr))

/-- The equivalence closure is monotone in the base relation. -/
theorem eqvGen_mono_rel {α : Type} {R S : α → α → Prop}
    (h : ∀ a b, R a b → S a b) :
    ∀ a b, Relation.EqvGen R a b → Relation.EqvGen S a b := by
  intro a b hab
  induction hab with
  | rel s t h2 => exact Relation.EqvGen.rel s t (h s t h2)
  | refl s => exact Relation.EqvGen.refl s
  | symm s t h2 ih => exact Relation.EqvGen.symm s t ih
  | trans s t r h1 h2 ih1 ih2 => exact Relation.EqvGen.trans s t r ih1 ih2

/-- Adding a single unordered pair to a relation joins exactly the two
classes of its endpoints in the equivalence closure. -/
theorem eqvGen_join {α : Type} {R : α → α → Prop} {u v : α} :
    ∀ a b,
      Relation.EqvGen (fun s t => R s t ∨ (s = u ∧ t = v) ∨ (s = v ∧ t = u)) a b ↔
      (Relation.EqvGen R a b ∨
       (Relation.EqvGen R a u ∧ Relation.EqvGen R v b) ∨
       (Relation.EqvGen R a v ∧ Relation.EqvGen R u b)) := by
  intro a b
  constructor
  · intro hab
    induction hab with
    | rel s t h2 =>
      rcases h2 with h2 | ⟨h3, h4⟩ | ⟨h3, h4⟩
      · exact Or.inl (Relation.EqvGen.rel s t h2)
      · subst h3
        subst h4
        exact Or.inr (Or.inl ⟨Relation.EqvGen.refl _, Relation.EqvGen.refl _⟩)
      · subst h3
        subst h4
        exact Or.inr (Or.inr ⟨Relation.EqvGen.refl _, Relation.EqvGen.refl _⟩)
    | refl s => exact Or.inl (Relation.EqvGen.refl s)
    | symm s t h2 ih =>
      rcases ih with ih | ⟨h3, h4⟩ | ⟨h3, h4⟩
      · exact Or.inl (Relation.EqvGen.symm s t ih)
      · exact Or.inr (Or.inr
          ⟨Relation.EqvGen.symm _ _ h4, Relation.EqvGen.symm _ _ h3⟩)
      · exact Or.inr (Or.inl
          ⟨Relation.EqvGen.symm _ _ h4, Relation.EqvGen.symm _ _ h3⟩)
    | trans s t r h1 h2 ih1 ih2 =>
      rcases ih1 with ih1 | ⟨ha1, ha2⟩ | ⟨ha1, ha2⟩
      · rcases ih2 with ih2 | ⟨hb1, hb2⟩ | ⟨hb1, hb2⟩
        · exact Or.inl (Relation.EqvGen.trans _ _ _ ih1 ih2)
        · exact Or.inr (Or.inl ⟨Relation.EqvGen.trans _ _ _ ih1 hb1, hb2⟩)
        · exact Or.inr (Or.inr ⟨Relation.EqvGen.trans _ _ _ ih1 hb1, hb2⟩)
      · rcases ih2 with ih2 | ⟨hb1, hb2⟩ | ⟨hb1, hb2⟩
        · exact Or.inr (Or.inl ⟨ha1, Relation.EqvGen.trans _ _ _ ha2 ih2⟩)
        · exact Or.inl (Relation.EqvGen.trans _ _ _
            (Relation.EqvGen.trans _ _ _ ha1
              (Relation.EqvGen.symm _ _ (Relation.EqvGen.trans _ _ _ ha2 hb1))) hb2)
        · exact Or.inl (Relation.EqvGen.trans _ _ _ ha1 hb2)
      · rcases ih2 with ih2 | ⟨hb1, hb2⟩ | ⟨hb1, hb2⟩
        · exact Or.inr (Or.inr ⟨ha1, Relation.EqvGen.trans _ _ _ ha2 ih2⟩)
        · exact Or.inl (Relation.EqvGen.trans _ _ _ ha1 hb2)
        · exact Or.inl (Relation.EqvGen.trans _ _ _
            (Relation.EqvGen.trans _ _ _ ha1
              (Relation.EqvGen.symm _ _ (Relation.EqvGen.trans _ _ _ ha2 hb1))) hb2)
  · have hsub : ∀ c d, Relation.EqvGen R c d →
        Relation.EqvGen (fun s t => R s t ∨ (s = u ∧ t = v) ∨ (s = v ∧ t = u)) c d :=
      eqvGen_mono_rel (fun c d h2 => Or.inl h2)
    have huv : Relation.EqvGen
        (fun s t => R s t ∨ (s = u ∧ t = v) ∨ (s = v ∧ t = u)) u v :=
      Relation.EqvGen.rel u v (Or.inr (Or.inl ⟨rfl, rfl⟩))
    rintro (h2 | ⟨h3, h4⟩ | ⟨h3, h4⟩)
    · exact hsub a b h2
    · exact Relation.EqvGen.trans _ _ _
        (Relation.EqvGen.trans _ _ _ (hsub a u h3) huv) (hsub v b h4)
    · exact Relation.EqvGen.trans _ _ _
        (Relation.EqvGen.trans _ _ _ (hsub a v h3)
          (Relation.EqvGen.symm _ _ huv)) (hsub u b h4)

/-- Adjacency over `es ++ [e]` is adjacency over `es` plus the one pair. -/
theorem adjNat_append_single (es : List NetEdge) (e : NetEdge) :
    ∀ a b, adjNat (es ++ [e]) a b ↔
      (adjNat es a b ∨ (a = e.u ∧ b = e.v) ∨ (a = e.v ∧ b = e.u)) := by
  intro a b
  constructor
  · rintro ⟨e2, hmem, hcase⟩
    rcases List.mem_append.1 hmem with h | h
    · exact Or.inl ⟨e2, h, hcase⟩
    · rcases List.mem_singleton.1 h with rfl
      rcases hcase with ⟨h1, h2⟩ | ⟨h1, h2⟩
      · exact Or.inr (Or.inl ⟨h1.symm, h2.symm⟩)
      · exact Or.inr (Or.inr ⟨h2.symm, h1.symm⟩)
  · rintro (⟨e2, hmem, hcase⟩ | ⟨h1, h2⟩ | ⟨h1, h2⟩)
    · exact ⟨e2, List.mem_append.2 (Or.inl hmem), hcase⟩
    · subst h1
      subst h2
      exact ⟨e, List.mem_append.2 (Or.inr (List.mem_singleton.2 rfl)),
        Or.inl ⟨rfl, rfl⟩⟩
    · subst h1
      subst h2
      exact ⟨e, List.mem_append.2 (Or.inr (List.mem_singleton.2 rfl)),
        Or.inr ⟨rfl, rfl⟩⟩

/-- Connectivity only depends on edge membership, monotonically. -/
theorem connNat_mono {es1 es2 : List NetEdge}
    (h : ∀ e, e ∈ es1 → e ∈ es2) :
    ∀ a b, connNat es1 a b → connNat es2 a b := by
  intro a b hab
  refine eqvGen_mono_rel ?_ a b hab
  intro s t hst
  rcases hst with ⟨e2, hm, hc⟩
  exact ⟨e2, h e2 hm, hc⟩

/-- Connectivity is invariant under permutation of the edge list. -/
theorem connNat_perm {es1 es2 : List NetEdge} (h : es1.Perm es2) :
    ∀ a b, connNat es1 a b ↔ connNat es2 a b :=
  fun a b => ⟨connNat_mono (fun e he => h.mem_iff.1 he) a b,
              connNat_mono (fun e he => h.mem_iff.2 he) a b⟩

/-- Connectivity after appending one edge: the closure joins exactly the two
endpoint classes. -/
theorem connNat_append_one (es : List NetEdge) (e : NetEdge) :
    ∀ a b, connNat (es ++ [e]) a b ↔
      (connNat es a b ∨ (connNat es a e.u ∧ connNat es e.v b) ∨
       (connNat es a e.v ∧ connNat es e.u b)) := by
  intro a b
  constructor
  · intro h
    have h2 : Relation.EqvGen
        (fun s t => adjNat es s t ∨ (s = e.u ∧ t = e.v) ∨ (s = e.v ∧ t = e.u)) a b := by
      refine eqvGen_mono_rel ?_ a b h
      intro s t hst
      exact (adjNat_append_single es e s t).1 hst
    exact (eqvGen_join a b).1 h2
  · intro h
    have h2 := (eqvGen_join (R := adjNat es) (u := e.u) (v := e.v) a b).2 h
    refine eqvGen_mono_rel ?_ a b h2
    intro s t hst
    exact (adjNat_append_single es e s t).2 hst

/-- Appending an edge whose endpoints are already connected does not change
connectivity. -/
theorem connNat_append_redundant (es : List NetEdge) (e : NetEdge)
    (h : connNat es e.u e.v) :
    ∀ a b, connNat (es ++ [e]) a b ↔ connNat es a b := by
  intro a b
  rw [connNat_append_one es e a b]
  constructor
  · rintro (h2 | ⟨h1, h2⟩ | ⟨h1, h2⟩)
    · exact h2
    · exact Relation.EqvGen.trans _ _ _ (Relation.EqvGen.trans _ _ _ h1 h) h2
    · exact Relation.EqvGen.trans _ _ _
        (Relation.EqvGen.trans _ _ _ h1 (Relation.EqvGen.symm _ _ h)) h2
  · exact Or.inl

/-- With no edges, connectivity is equality. -/
theorem connNat_nil : ∀ a b, connNat ([] : List NetEdge) a b ↔ a = b := by
  intro a b
  constructor
  · intro h
    have h2 : Relation.EqvGen (adjNat []) a b := h
    clear h
    induction h2 with
    | rel s t h3 =>
      rcases h3 with ⟨e2, hm, -⟩
      exact absurd hm (List.not_mem_nil e2)
    | refl s => rfl
    | symm s t h3 ih => exact ih.symm
    | trans s t r h3 h4 ih1 ih2 => exact ih1.trans ih2
  · rintro rfl
    exact Relation.EqvGen.refl a

/-- Over in-range edges, a `Nat`-level connection keeps endpoints on the same
side of `n`, and between in-range indices it descends to `Fin n`. -/
theorem connNat_bound_aux {es : List NetEdge} {n : Nat}
    (hval : ∀ e ∈ es, e.u < n ∧ e.v < n) :
    ∀ x y, connNat es x y →
      (x < n ↔ y < n) ∧
      (∀ (hx : x < n) (hy : y < n),
        Relation.EqvGen (adjFin es n) ⟨x, hx⟩ ⟨y, hy⟩) := by
  intro x y h
  have h2 : Relation.EqvGen (adjNat es) x y := h
  clear h
  induction h2 with
  | rel s t h3 =>
    rcases h3 with ⟨e2, hm, hc⟩
    rcases hval e2 hm with ⟨hu, hv⟩
    rcases hc with ⟨h4, h5⟩ | ⟨h4, h5⟩
    · subst h4
      subst h5
      refine ⟨iff_of_true hu hv, ?_⟩
      intro hx hy
      exact Relation.EqvGen.rel _ _ ⟨e2, hm, Or.inl ⟨rfl, rfl⟩⟩
    · subst h4
      subst h5
      refine ⟨iff_of_true hv hu, ?_⟩
      intro hx hy
      exact Relation.EqvGen.rel _ _ ⟨e2, hm, Or.inr ⟨rfl, rfl⟩⟩
  | refl s =>
    exact ⟨Iff.rfl, fun hx hy => Relation.EqvGen.refl _⟩
  | symm s t h3 ih =>
    exact ⟨ih.1.symm, fun hx hy => Relation.EqvGen.symm _ _ (ih.2 hy hx)⟩
  | trans s t r h3 h4 ih1 ih2 =>
    refine ⟨ih1.1.trans ih2.1, ?_⟩
    intro hx hy
    have ht : t < n := ih1.1.1 hx
    exact Relation.EqvGen.trans _ _ _ (ih1.2 hx ht) (ih2.2 ht hy)

/-- `Fin`-level connectivity lifts back to `Nat`-level connectivity. -/
theorem connFin_to_connNat {es : List NetEdge} {n : Nat} :
    ∀ a b : Fin n, Relation.EqvGen (adjFin es n) a b → connNat es a.val b.val := by
  intro a b h
  induction h with
  | rel s t h2 => exact Relation.EqvGen.rel _ _ h2
  | refl s => exact Relation.EqvGen.refl _
  | symm s t h2 ih => exact Relation.EqvGen.symm _ _ ih
  | trans s t r h2 h3 ih1 ih2 => exact Relation.EqvGen.trans _ _ _ ih1 ih2

/-- Pointwise-equal rootness gives equal root lists. -/
theorem ufRoots_congr {p q : List Nat} {n : Nat}
    (h : ∀ i, (p.getD i i = i) ↔ (q.getD i i = i)) :
    ufRoots p n = ufRoots q n := by
  unfold ufRoots
  refine List.filter_congr ?_
  intro i _
  simp only [decide_eq_decide]
  exact h i

/-- Membership in the root list. -/
theorem mem_ufRoots {p : List Nat} {n i : Nat} :
    i ∈ ufRoots p n ↔ (i < n ∧ p.getD i i = i) := by
  unfold ufRoots
  simp [List.mem_filter, List.mem_range]

/-- Splitting a filter along a pointwise conjunction. -/
theorem filter_and_split {α : Type} (Q R P : α → Bool)
    (h : ∀ i, P i = (Q i && R i)) :
    ∀ L : List α, L.filter P = (L.filter Q).filter R := by
  intro L
  induction L with
  | nil => rfl
  | cons a t ih =>
    simp only [List.filter_cons]
    rw [h a]
    cases hq : Q a <;> cases hr : R a <;>
      simp [List.filter_cons, hq, hr, ih]

/-- Removing the root `l` from the root set drops the count by exactly one. -/
theorem ufRoots_drop {p q : List Nat} {n l : Nat}
    (h : ∀ i, (q.getD i i = i) ↔ (p.getD i i = i ∧ i ≠ l))
    (hl : p.getD l l = l) (hln : l < n) :
    (ufRoots p n).length = (ufRoots q n).length + 1 := by
  have hP : ∀ i : Nat,
      decide (q.getD i i = i) = (decide (p.getD i i = i) && decide (i ≠ l)) := by
    intro i
    rw [show decide (q.getD i i = i) = decide (p.getD i i = i ∧ i ≠ l) from
      decide_eq_decide.mpr (h i)]
    exact Bool.decide_and _ _
  have hq2 : ufRoots q n = (ufRoots p n).filter (fun i => i ≠ l) := by
    unfold ufRoots
    exact filter_and_split _ _ _ hP (List.range n)
  rw [hq2]
  refine length_filter_ne_of_nodup_mem (ufRoots p n) l ?_ (mem_ufRoots.2 ⟨hln, hl⟩)
  unfold ufRoots
  exact (List.nodup_range n).filter _

/-- The initial parent list reads back the identity everywhere. -/
theorem range_getD (n : Nat) : ∀ i, (List.range n).getD i i = i := by
  intro i
  by_cases h : i < n
  · rw [List.getD_eq_getElem?_getD, List.getElem?_range h]
    rfl
  · rw [List.getD_eq_getElem?_getD, List.getElem?_eq_none]
    · rfl
    · rw [List.length_range]
      omega

/-- The fresh union-find state is well-formed. -/
theorem ufWf_initial (n : Nat) : UFWf (List.range n) (List.replicate n 0) := by
  refine ⟨?_, ?_, ?_⟩
  · rw [List.length_replicate, List.length_range]
  · intro i hi
    rw [range_getD n i]
    exact hi
  · intro i hi hne
    exact absurd (range_getD n i) hne

/-- In the fresh union-find state, classes are singletons. -/
theorem sameRoot_initial (n : Nat) :
    ∀ a b, sameRoot (List.range n) a b ↔ a = b := by
  intro a b
  constructor
  · rintro ⟨r, ⟨k1, h1⟩, ⟨k2, h2⟩⟩
    have e1 := (rootPathN_of_root (range_getD n a) h1).1
    have e2 := (rootPathN_of_root (range_getD n b) h2).1
    omega
  · rintro rfl
    exact ⟨a, ⟨0, RootPathN.root a (range_getD n a)⟩,
      ⟨0, RootPathN.root a (range_getD n a)⟩⟩

/-- In the fresh union-find state, every node is a root. -/
theorem ufRoots_initial (n : Nat) : (ufRoots (List.range n) n).length = n := by
  have h : ∀ a ∈ List.range n,
      (fun i => decide ((List.range n).getD i i = i)) a = true := by
    intro a _
    show decide ((List.range n).getD a a = a) = true
    rw [range_getD n a]
    simp
  unfold ufRoots
  rw [List.filter_eq_self.2 h, List.length_range]

/-- Every in-range node reaches some member of the root list. -/
theorem rootPath_to_ufRoots {p rk : List Nat} (hwf : UFWf p rk) {a : Nat}
    (ha : a < p.length) :
    ∃ r, RootPath p a r ∧ r ∈ ufRoots p p.length := by
  rcases rootPath_exists hwf (ufMeasure rk p.length a) a ha (le_refl _) with
    ⟨s, k, hk, -⟩
  exact ⟨s, ⟨k, hk⟩,
    mem_ufRoots.2 ⟨rootPathN_lt hwf hk ha, rootPathN_last_isRoot hk⟩⟩

/-- The Kruskal loop invariant: union-find classes match connectivity over
the processed prefix, and accepted edges plus remaining roots always count
the nodes.  The conclusion covers the whole edge list even on the early
`n - 1` break, because the break certifies a single remaining root and hence
total connectivity. -/
theorem kruskalLoop_spec {n : Nat} :
    ∀ (es : List NetEdge) (p rk : List Nat) (mst processed : List NetEdge),
      (∀ e ∈ es, e.u < n ∧ e.v < n) →
      p.length = n → UFWf p rk →
      (∀ a b, a < n → b < n → (sameRoot p a b ↔ connNat processed a b)) →
      mst.length + (ufRoots p n).length = n →
      (kruskalLoop n es p rk mst).2.length = n ∧
      (∃ rk2, UFWf (kruskalLoop n es p rk mst).2 rk2) ∧
      (∀ a b, a < n → b < n →
        (sameRoot (kruskalLoop n es p rk mst).2 a b ↔
         connNat (processed ++ es) a b)) ∧
      (kruskalLoop n es p rk mst).1.length +
        (ufRoots (kruskalLoop n es p rk mst).2 n).length = n := by
  intro es
  induction es with
  | nil =>
    intro p rk mst processed hval hplen hwf hinv hsum
    simp only [kruskalLoop, List.append_nil]
    exact ⟨hplen, ⟨rk, hwf⟩, hinv, hsum⟩
  | cons e rest ih =>
    intro p rk mst processed hval hplen hwf hinv hsum
    have heu : e.u < n := (hval e (List.mem_cons_self e rest)).1
    have hev : e.v < n := (hval e (List.mem_cons_self e rest)).2
    have heu2 : e.u < p.length := by rw [hplen]; exact heu
    have hev2 : e.v < p.length := by rw [hplen]; exact hev
    rcases ufUnion_spec hwf e.u e.v heu2 hev2 with ⟨hulen, huwf, hfalse, htrue⟩
    have hvalr : ∀ e2 ∈ rest, e2.u < n ∧ e2.v < n :=
      fun e2 he2 => hval e2 (List.mem_cons_of_mem e he2)
    simp only [kruskalLoop]
    cases hb : (ufUnion p rk e.u e.v).2 with
    | false =>
      rcases hfalse hb with ⟨hrk, hsxy, hsiff, hriff⟩
      rw [if_neg (show ¬ (false = true) by decide)]
      have hconn : connNat processed e.u e.v := (hinv e.u e.v heu hev).1 hsxy
      have hinv2 : ∀ a b, a < n → b < n →
          (sameRoot (ufUnion p rk e.u e.v).1.1 a b ↔
           connNat (processed ++ [e]) a b) := by
        intro a b ha hb2
        rw [hsiff a b, connNat_append_redundant processed e hconn a b]
        exact hinv a b ha hb2
      have hsum2 : mst.length + (ufRoots (ufUnion p rk e.u e.v).1.1 n).length = n := by
        rw [ufRoots_congr hriff]
        exact hsum
      rcases ih (ufUnion p rk e.u e.v).1.1 (ufUnion p rk e.u e.v).1.2 mst
          (processed ++ [e]) hvalr (by rw [hulen, hplen]) huwf hinv2 hsum2 with
        ⟨h1, h2, h3, h4⟩
      refine ⟨h1, h2, ?_, h4⟩
      intro a b ha hb2
      rw [h3 a b ha hb2, List.append_assoc, List.singleton_append]
    | true =>
      rcases htrue hb with ⟨hnxy, hsiff, ⟨l, hlroot, hllen, hriff⟩⟩
      rw [if_pos (show true = true from rfl)]
      have hconn2 : ∀ a b, a < n → b < n →
          (sameRoot (ufUnion p rk e.u e.v).1.1 a b ↔
           connNat (processed ++ [e]) a b) := by
        intro a b ha hb2
        rw [hsiff a b, connNat_append_one processed e a b]
        constructor
        · rintro (h2 | ⟨h3, h4⟩ | ⟨h3, h4⟩)
          · exact Or.inl ((hinv a b ha hb2).1 h2)
          · exact Or.inr (Or.inl ⟨(hinv a e.u ha heu).1 h3,
              Relation.EqvGen.symm _ _ ((hinv b e.v hb2 hev).1 h4)⟩)
          · exact Or.inr (Or.inr ⟨(hinv a e.v ha hev).1 h3,
              Relation.EqvGen.symm _ _ ((hinv b e.u hb2 heu).1 h4)⟩)
        · rintro (h2 | ⟨h3, h4⟩ | ⟨h3, h4⟩)
          · exact Or.inl ((hinv a b ha hb2).2 h2)
          · exact Or.inr (Or.inl ⟨(hinv a e.u ha heu).2 h3,
              (hinv b e.v hb2 hev).2 (Relation.EqvGen.symm _ _ h4)⟩)
          · exact Or.inr (Or.inr ⟨(hinv a e.v ha hev).2 h3,
              (hinv b e.u hb2 heu).2 (Relation.EqvGen.symm _ _ h4)⟩)
      have hdrop : (ufRoots p n).length =
          (ufRoots (ufUnion p rk e.u e.v).1.1 n).length + 1 :=
        ufRoots_drop hriff hlroot (by rw [← hplen]; exact hllen)
      have hmlen : (mst ++ [e]).length = mst.length + 1 := by
        rw [List.length_append, List.length_singleton]
      by_cases hbreak : (mst ++ [e]).length = n - 1
      · rw [if_pos hbreak]
        have hroots1 : (ufRoots (ufUnion p rk e.u e.v).1.1 n).length = 1 := by
          omega
        rcases List.length_eq_one.1 hroots1 with ⟨r0, hr0⟩
        have htotal : ∀ a, a < n → RootPath (ufUnion p rk e.u e.v).1.1 a r0 := by
          intro a ha
          rcases rootPath_to_ufRoots huwf
              (show a < (ufUnion p rk e.u e.v).1.1.length by
                rw [hulen, hplen]; exact ha) with ⟨r2, hr2, hr2mem⟩
          rw [hulen, hplen, hr0] at hr2mem
          rcases List.mem_singleton.1 hr2mem with rfl
          exact hr2
        have htot2 : ∀ a b, a < n → b < n →
            sameRoot (ufUnion p rk e.u e.v).1.1 a b :=
          fun a b ha hb2 => ⟨r0, htotal a ha, htotal b hb2⟩
        refine ⟨?_, ⟨(ufUnion p rk e.u e.v).1.2, huwf⟩, ?_, ?_⟩
        · show (ufUnion p rk e.u e.v).1.1.length = n
          rw [hulen, hplen]
        · intro a b ha hb2
          constructor
          · intro _
            have h2 := (hconn2 a b ha hb2).1 (htot2 a b ha hb2)
            refine connNat_mono ?_ a b h2
            intro e2 he2
            rcases List.mem_append.1 he2 with h3 | h3
            · exact List.mem_append.2 (Or.inl h3)
            · rcases List.mem_singleton.1 h3 with rfl
              exact List.mem_append.2 (Or.inr (List.mem_cons_self _ _))
          · intro _
            exact htot2 a b ha hb2
        · show (mst ++ [e]).length +
            (ufRoots (ufUnion p rk e.u e.v).1.1 n).length = n
          omega
      · rw [if_neg hbreak]
        rcases ih (ufUnion p rk e.u e.v).1.1 (ufUnion p rk e.u e.v).1.2 (mst ++ [e])
            (processed ++ [e]) hvalr (by rw [hulen, hplen]) huwf hconn2
            (by omega) with ⟨h1, h2, h3, h4⟩
        refine ⟨h1, h2, ?_, h4⟩
        intro a b ha hb2
        rw [h3 a b ha hb2, List.append_assoc, List.singleton_append]

/-- When union-find classes coincide with graph connectivity, the root count
is the number of connected components of the topology graph. -/
theorem ufRoots_length_eq_numComponents {p rk : List Nat} {E : List NetEdge}
    {n : Nat} (hwf : UFWf p rk) (hlen : p.length = n)
    (hval : ∀ e ∈ E, e.u < n ∧ e.v < n)
    (hinv : ∀ a b, a < n → b < n → (sameRoot p a b ↔ connNat E a b)) :
    (ufRoots p n).length = numComponents n E := by
  have hnd : (ufRoots p n).Nodup := by
    unfold ufRoots
    exact (List.nodup_range n).filter _
  have hget : ∀ j : Fin (ufRoots p n).length, (ufRoots p n).get j < n :=
    fun j => (mem_ufRoots.1 (List.get_mem _ j.val j.isLt)).1
  have hrootget : ∀ j : Fin (ufRoots p n).length,
      p.getD ((ufRoots p n).get j) ((ufRoots p n).get j) = (ufRoots p n).get j :=
    fun j => (mem_ufRoots.1 (List.get_mem _ j.val j.isLt)).2
  have hconn_of_same : ∀ a b (ha : a < n) (hb : b < n), sameRoot p a b →
      Relation.EqvGen (adjFin E n) ⟨a, ha⟩ ⟨b, hb⟩ := by
    intro a b ha hb h
    exact (connNat_bound_aux hval a b ((hinv a b ha hb).1 h)).2 ha hb
  have hsame_of_conn : ∀ (a b : Fin n), Relation.EqvGen (adjFin E n) a b →
      sameRoot p a.val b.val := by
    intro a b h
    exact (hinv a.val b.val a.isLt b.isLt).2 (connFin_to_connNat a b h)
  have hbij : Function.Bijective
      (fun j : Fin (ufRoots p n).length =>
        Quotient.mk (Relation.EqvGen.setoid (adjFin E n))
          ⟨(ufRoots p n).get j, hget j⟩) := by
    constructor
    · intro j1 j2 hj
      have hsame := hsame_of_conn _ _ (Quotient.exact hj)
      rcases hsame with ⟨r, ⟨k1, hk1⟩, ⟨k2, hk2⟩⟩
      have e1 := (rootPathN_of_root (hrootget j1) hk1).1
      have e2 := (rootPathN_of_root (hrootget j2) hk2).1
      have hgeq : (ufRoots p n).get j1 = (ufRoots p n).get j2 := by omega
      exact List.nodup_iff_injective_get.1 hnd hgeq
    · intro q
      rcases Quotient.exists_rep q with ⟨a, rfl⟩
      have halt : a.val < p.length := by
        rw [hlen]
        exact a.isLt
      rcases rootPath_to_ufRoots hwf halt with ⟨r, hr, hrmem⟩
      rw [hlen] at hrmem
      rcases List.mem_iff_get.1 hrmem with ⟨j, hj⟩
      refine ⟨j, ?_⟩
      refine Quotient.sound ?_
      have hrn : r < n := (mem_ufRoots.1 hrmem).1
      have hrroot : p.getD r r = r := (mem_ufRoots.1 hrmem).2
      have heqF : (⟨(ufRoots p n).get j, hget j⟩ : Fin n) = ⟨r, hrn⟩ := Fin.ext hj
      rw [heqF]
      exact hconn_of_same r a.val hrn a.isLt ⟨r, ⟨0, RootPathN.root r hrroot⟩, hr⟩
  have hcard := Nat.card_eq_of_bijective _ hbij
  unfold numComponents
  rw [← hcard, Nat.card_eq_fintype_card, Fintype.card_fin]

/-- With in-range endpoints, building the adjacency table cannot raise. -/
theorem buildAdjacency_ok {n : Nat} :
    ∀ (es : List NetEdge) (adj : List (List (Nat × Nat))),
      (∀ e ∈ es, e.u < n ∧ e.v < n) →
      ∃ adj2, buildAdjacency n es adj = .ok adj2 := by
  intro es
  induction es with
  | nil =>
    intro adj _
    exact ⟨adj, rfl⟩
  | cons e rest ih =>
    intro adj hval
    have h1 := (hval e (List.mem_cons_self e rest)).1
    have h2 := (hval e (List.mem_cons_self e rest)).2
    simp only [buildAdjacency]
    rw [if_pos h1, if_pos h2]
    exact ih _ (fun e2 he2 => hval e2 (List.mem_cons_of_mem e he2))

/-- `_compute_mst` satisfies the spanning-forest count: accepted edges plus
connected components of the topology equal the number of cities. -/
theorem compute_mst_count {st : RoutingState}
    (hval : ∀ e ∈ st.edges, e.u < st.cities.length ∧ e.v < st.cities.length) :
    (compute_mst st).mst_edges.length +
      numComponents st.cities.length st.edges = st.cities.length := by
  by_cases hempty : (st.edges.isEmpty || st.cities.isEmpty) = true
  · have hedges : st.edges = [] := by
      rw [Bool.or_eq_true] at hempty
      rcases hempty with h | h
      · exact List.isEmpty_iff.1 h
      · have hn : st.cities = [] := List.isEmpty_iff.1 h
        refine List.eq_nil_iff_forall_not_mem.2 ?_
        intro e he
        have h3 := (hval e he).1
        rw [hn] at h3
        simp at h3
    have hbridge := ufRoots_length_eq_numComponents
      (ufWf_initial st.cities.length) (List.length_range st.cities.length)
      (fun e he => absurd he (List.not_mem_nil e))
      (fun a b _ _ => (sameRoot_initial st.cities.length a b).trans
        (connNat_nil a b).symm)
    have hnum : numComponents st.cities.length st.edges = st.cities.length := by
      rw [hedges, ← hbridge, ufRoots_initial]
    have hres : (compute_mst st).mst_edges = [] := by
      unfold compute_mst
      rw [if_pos hempty]
    rw [hres, List.length_nil, hnum]
    omega
  · have hperm : (sortEdgesByW st.edges).Perm st.edges := by
      unfold sortEdgesByW
      exact List.mergeSort_perm st.edges _
    have hvalS : ∀ e ∈ sortEdgesByW st.edges,
        e.u < st.cities.length ∧ e.v < st.cities.length :=
      fun e he => hval e (hperm.mem_iff.1 he)
    rcases kruskalLoop_spec (sortEdgesByW st.edges) (List.range st.cities.length)
        (List.replicate st.cities.length 0) [] [] hvalS
        (List.length_range st.cities.length) (ufWf_initial st.cities.length)
        (fun a b _ _ => (sameRoot_initial st.cities.length a b).trans
          (connNat_nil a b).symm)
        (by rw [List.length_nil, ufRoots_initial]; omega) with
      ⟨hlen2, ⟨rk2, hwf2⟩, hiff2, hsum2⟩
    have hinvE : ∀ a b, a < st.cities.length → b < st.cities.length →
        (sameRoot (kruskalLoop st.cities.length (sortEdgesByW st.edges)
          (List.range st.cities.length) (List.replicate st.cities.length 0) []).2 a b ↔
         connNat st.edges a b) := by
      intro a b ha hb
      rw [hiff2 a b ha hb, List.nil_append]
      exact connNat_perm hperm a b
    have hbridge := ufRoots_length_eq_numComponents hwf2 hlen2 hval hinvE
    unfold compute_mst
    rw [if_neg hempty]
    show (kruskalLoop st.cities.length (sortEdgesByW st.edges)
      (List.range st.cities.length) (List.replicate st.cities.length 0) []).1.length +
      numComponents st.cities.length st.edges = st.cities.length
    rw [← hbridge]
    exact hsum2

/-- C3: for every topology load whose edge endpoints are valid indices into
the city list, the load completes without raising and the computed MST edge
list has exactly `n - k` edges, where `n` is the number of cities and `k` the
number of connected components of the topology graph (stated additively as
`|mst| + k = n`, which also forces `|mst| ≤ n - 1`). -/
theorem C3_mst_forest_count (st0 : RoutingState) (cities : List City)
    (edges : List NetEdge)
    (hval : ∀ e ∈ edges, e.u < cities.length ∧ e.v < cities.length) :
    (load_topology st0 cities edges).2 = false ∧
    (load_topology st0 cities edges).1.mst_edges.length +
      numComponents cities.length edges = cities.length := by
  rcases buildAdjacency_ok edges (List.replicate cities.length []) hval with
    ⟨adj2, hok⟩
  unfold load_topology
  rw [hok]
  exact ⟨rfl, compute_mst_count hval⟩

/-- Witness for C3: three cities, one edge `0 - 1`, hence two components and
an MST of `3 - 2 = 1` edge. -/
theorem C3_mst_forest_count_witness :
    (∀ e ∈ [NetEdge.mk 0 1 5], e.u < 3 ∧ e.v < 3) ∧
    ((load_topology initialRoutingState
        [City.mk "A".data, City.mk "B".data, City.mk "C".data]
        [NetEdge.mk 0 1 5]).2 = false ∧
     (load_topology initialRoutingState
        [City.mk "A".data, City.mk "B".data, City.mk "C".data]
        [NetEdge.mk 0 1 5]).1.mst_edges.length +
       numComponents 3 [NetEdge.mk 0 1 5] = 3) :=
  ⟨fun e he => by
      rcases List.mem_singleton.1 he with rfl
      exact ⟨by decide, by decide⟩,
   C3_mst_forest_count initialRoutingState
     [City.mk "A".data, City.mk "B".data, City.mk "C".data]
     [NetEdge.mk 0 1 5]
     (fun e he => by
       rcases List.mem_singleton.1 he with rfl
       exact ⟨by decide, by decide⟩)⟩

/-- Appending into a bucket keeps the table length. -/
theorem length_adjAppend (adj : List (List (Nat × Nat))) (i : Nat)
    (pr : Nat × Nat) : (adjAppend adj i pr).length = adj.length :=
  List.length_modify _ _ _

/-- A member of a bucket after `adjAppend` was already there or is the new
entry in the touched bucket. -/
theorem mem_getD_adjAppend {adj : List (List (Nat × Nat))} {i : Nat}
    {pr pr2 : Nat × Nat} {j : Nat}
    (h : pr2 ∈ (adjAppend adj i pr).getD j []) :
    pr2 ∈ adj.getD j [] ∨ (pr2 = pr ∧ j = i) := by
  unfold adjAppend at h
  rw [List.getD_eq_getElem?_getD, List.getElem?_modify] at h
  rw [List.getD_eq_getElem?_getD]
  cases hj : adj[j]? with
  | none =>
    rw [hj] at h
    simp at h
  | some a =>
    rw [hj] at h
    simp only [Option.map_some, Option.getD_some] at h ⊢
    by_cases hij : i = j
    · rw [if_pos hij] at h
      rcases List.mem_append.1 h with h2 | h2
      · exact Or.inl h2
      · exact Or.inr ⟨List.mem_singleton.1 h2, hij.symm⟩
    · rw [if_neg hij] at h
      exact Or.inl h

/-- Buckets of the all-empty table are empty. -/
theorem getD_replicate_nil {β : Type} (n j : Nat) :
    (List.replicate n ([] : List β)).getD j [] = [] := by
  rw [List.getD_eq_getElem?_getD, List.getElem?_replicate]
  by_cases hj : j < n
  · rw [if_pos hj]
    rfl
  · rw [if_neg hj]
    rfl

/-- The folded MST adjacency keeps the initial table length. -/
theorem length_buildMstAdjacency_aux :
    ∀ (mst : List NetEdge) (adj : List (List (Nat × Nat))),
      (mst.foldl (fun adj e =>
        adjAppend (adjAppend adj e.u (e.v, e.w)) e.v (e.u, e.w)) adj).length =
      adj.length := by
  intro mst
  induction mst with
  | nil =>
    intro adj
    rfl
  | cons e rest ih =>
    intro adj
    simp only [List.foldl_cons]
    rw [ih, length_adjAppend, length_adjAppend]

/-- The MST adjacency has one bucket per city. -/
theorem length_buildMstAdjacency (n : Nat) (mst : List NetEdge) :
    (buildMstAdjacency n mst).length = n := by
  unfold buildMstAdjacency
  rw [length_buildMstAdjacency_aux, List.length_replicate]

/-- Bucket soundness of the folded MST adjacency over an arbitrary seed. -/
theorem mem_buildMstAdjacency_aux :
    ∀ (mst : List NetEdge) (adj : List (List (Nat × Nat))) (j : Nat)
      (pr : Nat × Nat),
      pr ∈ (mst.foldl (fun adj e =>
        adjAppend (adjAppend adj e.u (e.v, e.w)) e.v (e.u, e.w)) adj).getD j [] →
      pr ∈ adj.getD j [] ∨ adjNat mst j pr.1 := by
  intro mst
  induction mst with
  | nil =>
    intro adj j pr h
    exact Or.inl h
  | cons e rest ih =>
    intro adj j pr h
    simp only [List.foldl_cons] at h
    rcases ih _ j pr h with h2 | h2
    · rcases mem_getD_adjAppend h2 with h3 | ⟨h3, h4⟩
      · rcases mem_getD_adjAppend h3 with h4 | ⟨h4, h5⟩
        · exact Or.inl h4
        · subst h4
          exact Or.inr ⟨e, List.mem_cons_self e rest, Or.inl ⟨h5.symm, rfl⟩⟩
      · subst h3
        exact Or.inr ⟨e, List.mem_cons_self e rest, Or.inr ⟨rfl, h4.symm⟩⟩
    · rcases h2 with ⟨e2, hm, hc⟩
      exact Or.inr ⟨e2, List.mem_cons_of_mem e hm, hc⟩

/-- Every neighbour entry of the MST adjacency comes from an MST edge. -/
theorem mem_buildMstAdjacency {n : Nat} {mst : List NetEdge} {j : Nat}
    {pr : Nat × Nat} (h : pr ∈ (buildMstAdjacency n mst).getD j []) :
    adjNat mst j pr.1 := by
  rcases mem_buildMstAdjacency_aux mst (List.replicate n []) j pr h with h2 | h2
  · rw [getD_replicate_nil] at h2
    exact absurd h2 (List.not_mem_nil pr)
  · exact h2

/-- `_compute_mst` does not touch the city list. -/
theorem compute_mst_cities (st : RoutingState) :
    (compute_mst st).cities = st.cities := by
  unfold compute_mst
  by_cases h : (st.edges.isEmpty || st.cities.isEmpty) = true
  · rw [if_pos h]
  · rw [if_neg h]

/-- `_compute_mst` does not touch the name-to-index map. -/
theorem compute_mst_c2i (st : RoutingState) :
    (compute_mst st).city_to_index = st.city_to_index := by
  unfold compute_mst
  by_cases h : (st.edges.isEmpty || st.cities.isEmpty) = true
  · rw [if_pos h]
  · rw [if_neg h]

/-- The rebuilt MST adjacency always has one bucket per city. -/
theorem compute_mst_adj_length (st : RoutingState) :
    (compute_mst st).mst_adjacency.length = st.cities.length := by
  unfold compute_mst
  by_cases h : (st.edges.isEmpty || st.cities.isEmpty) = true
  · rw [if_pos h]
    show (List.replicate st.cities.length ([] : List (Nat × Nat))).length = _
    rw [List.length_replicate]
  · rw [if_neg h]
    show (buildMstAdjacency st.cities.length _).length = _
    rw [length_buildMstAdjacency]

/-- Neighbour entries of the rebuilt MST adjacency are MST edges. -/
theorem compute_mst_adj_sound (st : RoutingState) :
    ∀ cur pr, pr ∈ (compute_mst st).mst_adjacency.getD cur [] →
      adjNat (compute_mst st).mst_edges cur pr.1 := by
  intro cur pr
  unfold compute_mst
  by_cases h : (st.edges.isEmpty || st.cities.isEmpty) = true
  · rw [if_pos h]
    show pr ∈ (List.replicate st.cities.length []).getD cur [] →
      adjNat [] cur pr.1
    intro hm
    rw [getD_replicate_nil] at hm
    exact absurd hm (List.not_mem_nil pr)
  · rw [if_neg h]
    show pr ∈ (buildMstAdjacency st.cities.length
        (kruskalLoop st.cities.length (sortEdgesByW st.edges)
          (List.range st.cities.length)
          (List.replicate st.cities.length 0) []).1).getD cur [] →
      adjNat (kruskalLoop st.cities.length (sortEdgesByW st.edges)
        (List.range st.cities.length)
        (List.replicate st.cities.length 0) []).1 cur pr.1
    exact mem_buildMstAdjacency

/-- `find_route` once both lookups succeed. -/
theorem find_route_eq_some {st : RoutingState} {A B : List Char} {si ti : Nat}
    (hA : dictGetLast st.city_to_index A = some si)
    (hB : dictGetLast st.city_to_index B = some ti) :
    find_route st A B =
      (if st.mst_adjacency.length = 0 then []
       else if si = ti then [A]
       else bfsLoop st.mst_adjacency st.index_to_city ti B
         (st.mst_adjacency.length + 1) [(si, [A])] [si]) := by
  unfold find_route
  rw [hA, hB]

/-- `find_route` when a lookup fails. -/
theorem find_route_eq_none {st : RoutingState} {A B : List Char}
    (h : dictGetLast st.city_to_index A = none ∨
         dictGetLast st.city_to_index B = none) :
    find_route st A B = [] := by
  unfold find_route
  rcases h with h | h
  · rw [h]
  · rw [h]
    cases dictGetLast st.city_to_index A <;> rfl

/-- A registered city name resolves to some index. -/
theorem cityIndex_some {cities : List City} {A : List Char}
    (h : ∃ c ∈ cities, c.name = A) :
    ∃ i, dictGetLast (cities.enum.map
      (fun p : Nat × City => (p.2.name, p.1))) A = some i := by
  rcases h with ⟨c, hmem, hname⟩
  rcases List.mem_iff_getElem?.1 hmem with ⟨j, hj⟩
  have hent : ((c.name, j) : List Char × Nat) ∈
      cities.enum.map (fun p : Nat × City => (p.2.name, p.1)) := by
    refine List.mem_map.2 ⟨(j, c), ?_, rfl⟩
    exact List.mem_enum_iff_getElem?.2 hj
  have hs : ((cities.enum.map
      (fun p : Nat × City => (p.2.name, p.1))).reverse.find?
      (fun p => decide (p.1 = A))).isSome = true := by
    rw [List.find?_isSome]
    exact ⟨(c.name, j), List.mem_reverse.2 hent, by simp [hname]⟩
  rcases Option.isSome_iff_exists.1 hs with ⟨p, hp⟩
  refine ⟨p.2, ?_⟩
  unfold dictGetLast
  rw [hp]
  rfl

/-- An unregistered name resolves to no index. -/
theorem cityIndex_none {cities : List City} {A : List Char}
    (h : ∀ c ∈ cities, c.name ≠ A) :
    dictGetLast (cities.enum.map
      (fun p : Nat × City => (p.2.name, p.1))) A = none := by
  have hf : ((cities.enum.map
      (fun p : Nat × City => (p.2.name, p.1))).reverse.find?
      (fun p => decide (p.1 = A))) = none := by
    rw [List.find?_eq_none]
    intro x hx
    rcases List.mem_map.1 (List.mem_reverse.1 hx) with ⟨q, hq, rfl⟩
    have hq2 : q.2 ∈ cities :=
      List.mem_iff_getElem?.2 ⟨q.1, List.mem_enum_iff_getElem?.1 hq⟩
    simp only [decide_eq_true_eq]
    exact h q.2 hq2
  unfold dictGetLast
  rw [hf]
  rfl

/-- Soundness of the inner neighbour scan: a found path certifies the target
is connected to the BFS source, and every enqueued node stays connected. -/
theorem bfsScan_sound (i2c : List (Nat × List Char)) (tgtIdx : Nat)
    (tgtName : List Char) (path : List (List Char)) {E : List NetEdge}
    {s cur : Nat} (hcur : connNat E s cur) :
    ∀ (bucket : List (Nat × Nat)) (queue : List (Nat × List (List Char)))
      (visited : List Nat),
      (∀ pr ∈ bucket, adjNat E cur pr.1) →
      (∀ q ∈ queue, connNat E s q.1) →
      (match bfsScan i2c tgtIdx tgtName path bucket queue visited with
       | .inl _ => connNat E s tgtIdx
       | .inr r => ∀ q ∈ r.1, connNat E s q.1) := by
  intro bucket
  induction bucket with
  | nil =>
    intro queue visited hb hq
    exact hq
  | cons pr0 rest ih =>
    intro queue visited hb hq
    rcases pr0 with ⟨nb, w⟩
    simp only [bfsScan]
    have hnb : adjNat E cur nb := hb (nb, w) (List.mem_cons_self _ _)
    have hconn_nb : connNat E s nb :=
      Relation.EqvGen.trans _ _ _ hcur (Relation.EqvGen.rel _ _ hnb)
    by_cases ht : nb = tgtIdx
    · rw [if_pos ht]
      subst ht
      exact hconn_nb
    · rw [if_neg ht]
      by_cases hv : nb ∈ visited
      · rw [if_pos hv]
        exact ih queue visited (fun pr hm => hb pr (List.mem_cons_of_mem _ hm)) hq
      · rw [if_neg hv]
        refine ih _ _ (fun pr hm => hb pr (List.mem_cons_of_mem _ hm)) ?_
        intro q hq2
        rcases List.mem_append.1 hq2 with h2 | h2
        · exact hq q h2
        · rcases List.mem_singleton.1 h2 with rfl
          exact hconn_nb

/-- Soundness of the BFS loop: a non-empty result certifies the target is
connected to every queue entry's component. -/
theorem bfsLoop_sound {adj : List (List (Nat × Nat))}
    {i2c : List (Nat × List Char)} {tgtIdx : Nat} {tgtName : List Char}
    {E : List NetEdge} {s : Nat}
    (hadj : ∀ cur pr, pr ∈ adj.getD cur [] → adjNat E cur pr.1) :
    ∀ (fuel : Nat) (queue : List (Nat × List (List Char))) (visited : List Nat),
      (∀ q ∈ queue, connNat E s q.1) →
      bfsLoop adj i2c tgtIdx tgtName fuel queue visited ≠ [] →
      connNat E s tgtIdx := by
  intro fuel
  induction fuel with
  | zero =>
    intro queue visited hq hne
    exact absurd rfl hne
  | succ f ih =>
    intro queue visited hq hne
    cases queue with
    | nil => exact absurd rfl hne
    | cons q0 rest =>
      rcases q0 with ⟨cur, path⟩
      simp only [bfsLoop] at hne
      have hcur : connNat E s cur := hq (cur, path) (List.mem_cons_self _ _)
      have hscan := bfsScan_sound i2c tgtIdx tgtName path hcur (adj.getD cur []) rest visited
        (fun pr hm => hadj cur pr hm)
        (fun q hm => hq q (List.mem_cons_of_mem _ hm))
      cases hs : bfsScan i2c tgtIdx tgtName path (adj.getD cur []) rest visited with
      | inl found =>
        rw [hs] at hscan
        exact hscan
      | inr r =>
        rw [hs] at hscan hne
        exact ih r.1 r.2 hscan hne

/-- A successful load is `_compute_mst` of the remapped state. -/
theorem load_topology_proj {st0 : RoutingState} {cities : List City}
    {edges : List NetEdge}
    (hval : ∀ e ∈ edges, e.u < cities.length ∧ e.v < cities.length) :
    ∃ st1 : RoutingState,
      load_topology st0 cities edges = (compute_mst st1, false) ∧
      st1.cities = cities ∧ st1.edges = edges ∧
      st1.city_to_index = cities.enum.map (fun p : Nat × City => (p.2.name, p.1)) := by
  rcases buildAdjacency_ok edges (List.replicate cities.length []) hval with
    ⟨adj2, hok⟩
  refine Exists.intro
    { st0 with
      cities := cities
      edges := edges
      city_to_index := cities.enum.map (fun p : Nat × City => (p.2.name, p.1))
      index_to_city := cities.enum.map (fun p : Nat × City => (p.1, p.2.name))
      adjacency_list := adj2 }
    ⟨?_, rfl, rfl, rfl⟩
  unfold load_topology
  rw [hok]

/-- C4: on every successfully loadable topology, routing a registered city to
itself returns the singleton path; routing fails to the empty path (without
raising) when either endpoint name is unregistered, and likewise when the two
endpoints' indices lie in different components of the MST forest. -/
theorem C4_route_degenerate (st0 : RoutingState) (cities : List City)
    (edges : List NetEdge)
    (hval : ∀ e ∈ edges, e.u < cities.length ∧ e.v < cities.length) :
    (∀ A, (∃ c ∈ cities, c.name = A) →
      find_route (load_topology st0 cities edges).1 A A = [A]) ∧
    (∀ A B, ((∀ c ∈ cities, c.name ≠ A) ∨ (∀ c ∈ cities, c.name ≠ B)) →
      find_route (load_topology st0 cities edges).1 A B = []) ∧
    (∀ A B si ti,
      dictGetLast (load_topology st0 cities edges).1.city_to_index A = some si →
      dictGetLast (load_topology st0 cities edges).1.city_to_index B = some ti →
      ¬ connNat (load_topology st0 cities edges).1.mst_edges si ti →
      find_route (load_topology st0 cities edges).1 A B = []) := by
  rcases load_topology_proj hval with ⟨st1, heq, hc, he, hcti⟩
  have hL : (load_topology st0 cities edges).1 = compute_mst st1 := by rw [heq]
  rw [hL]
  have hc2i : (compute_mst st1).city_to_index =
      cities.enum.map (fun p : Nat × City => (p.2.name, p.1)) := by
    rw [compute_mst_c2i, hcti]
  refine ⟨?_, ?_, ?_⟩
  · intro A hA
    have hsome : ∃ i, dictGetLast (compute_mst st1).city_to_index A = some i := by
      rw [hc2i]
      exact cityIndex_some hA
    rcases hsome with ⟨i, hi⟩
    have hlen0 : ¬ ((compute_mst st1).mst_adjacency.length = 0) := by
      rw [compute_mst_adj_length, hc]
      rcases hA with ⟨c, hcm, -⟩
      have := List.length_pos_of_mem hcm
      omega
    rw [find_route_eq_some hi hi, if_neg hlen0, if_pos rfl]
  · intro A B hAB
    refine find_route_eq_none ?_
    rcases hAB with h | h
    · refine Or.inl ?_
      rw [hc2i]
      exact cityIndex_none h
    · refine Or.inr ?_
      rw [hc2i]
      exact cityIndex_none h
  · intro A B si ti hA2 hB2 hconn
    rw [find_route_eq_some hA2 hB2]
    by_cases hlen0 : (compute_mst st1).mst_adjacency.length = 0
    · rw [if_pos hlen0]
    · rw [if_neg hlen0]
      have hsiti : si ≠ ti := by
        intro h2
        subst h2
        exact hconn (Relation.EqvGen.refl si)
      rw [if_neg hsiti]
      by_contra hne
      refine hconn (bfsLoop_sound (compute_mst_adj_sound st1) _ [(si, [A])] [si]
        ?_ hne)
      intro q hq
      rcases List.mem_singleton.1 hq with rfl
      exact Relation.EqvGen.refl si

/-- Witness for C4: two cities, no edges; self-route, an unknown endpoint,
and the disconnected pair `0, 1`. -/
theorem C4_route_degenerate_witness :
    (∀ e ∈ ([] : List NetEdge), e.u < 2 ∧ e.v < 2) ∧
    ((∀ A, (∃ c ∈ [City.mk "A".data, City.mk "B".data], c.name = A) →
      find_route (load_topology initialRoutingState
        [City.mk "A".data, City.mk "B".data] []).1 A A = [A]) ∧
     (∀ A B, ((∀ c ∈ [City.mk "A".data, City.mk "B".data], c.name ≠ A) ∨
              (∀ c ∈ [City.mk "A".data, City.mk "B".data], c.name ≠ B)) →
      find_route (load_topology initialRoutingState
        [City.mk "A".data, City.mk "B".data] []).1 A B = []) ∧
     (∀ A B si ti,
      dictGetLast (load_topology initialRoutingState
        [City.mk "A".data, City.mk "B".data] []).1.city_to_index A = some si →
      dictGetLast (load_topology initialRoutingState
        [City.mk "A".data, City.mk "B".data] []).1.city_to_index B = some ti →
      ¬ connNat (load_topology initialRoutingState
        [City.mk "A".data, City.mk "B".data] []).1.mst_edges si ti →
      find_route (load_topology initialRoutingState
        [City.mk "A".data, City.mk "B".data] []).1 A B = [])) :=
  ⟨fun e he => absurd he (List.not_mem_nil e),
   C4_route_degenerate initialRoutingState
     [City.mk "A".data, City.mk "B".data] []
     (fun e he => absurd he (List.not_mem_nil e))⟩
